import Mathlib

/-! # Verification of the RSE (Reference Set Encoding) implementation

Shallow embedding of the three source files of the repository:
`src/encoder/data_encoder.py`, `src/encoder/ref_set_processor.py` and
`src/ref-set-generator/generator.py`.

Modelling conventions:
* Q-grams are `String`s; q-gram sets are `Finset String`.
* Python numbers: integer frequencies are embedded into `ℚ`; float scores and
  similarities are modelled as exact rationals `ℚ`.
* Python dicts keyed by consecutive integers built with `enumerate` starting
  at 0 (`random_set_dict`, hence `indexed_r`) are modelled as lists whose
  positions are the keys, or as `List (Nat × _)` association lists in key
  order where the keys themselves are consulted.
* A Python call that raises (`ValueError` from `min()` on an empty sequence or
  from unpacking, `KeyError`, `list.remove` on a missing element, a failing
  `assert`, an unbound local) is modelled as `none` / an error result.
* `random.sample` is abstracted by a sampler oracle `Nat → List String → Nat →
  List String` consuming a tick counter; `SampleOK` states exactly the
  guarantees of sampling without replacement.
* Unbounded `while` loops are given explicit fuel; exhausting the fuel is
  `none`, so `= some _` means the Python loop terminates (normally). -/

namespace RSE

/-! ## data_encoder.py -/

/-- Jaccard similarity of two q-gram sets (`q_gram_jacc_sim`, data_encoder.py
lines 130-149).  In Lean, `ℚ` division by zero yields 0; the encoder only calls
this with intersecting (hence nonempty-union) sets. -/
def q_gram_jacc_sim (q_gram_set1 q_gram_set2 : Finset String) : ℚ :=
  ((q_gram_set1 ∩ q_gram_set2).card : ℚ) / ((q_gram_set1 ∪ q_gram_set2).card : ℚ)

/-- One record's similarity store (`record_sim_store`, data_encoder.py lines
167-172): the (reference-set index, similarity) pairs for exactly the reference
sets with nonzero intersection with the record's q-gram set, in index order.
The parameter `i` is the index of the head of `rs` (the dict `indexed_r` is
iterated in key order 0,1,2,...). -/
def simStoreAux (recQ : Finset String) : List (Finset String) → Nat → List (Nat × ℚ)
  | [], _ => []
  | s :: rest, i =>
    (if (s ∩ recQ).Nonempty then [(i, q_gram_jacc_sim recQ s)] else []) ++
      simStoreAux recQ rest (i + 1)

def simStore (recQ : Finset String) (indexedR : List (Finset String)) : List (Nat × ℚ) :=
  simStoreAux recQ indexedR 0

/-- The relation sorted by at data_encoder.py line 174: descending similarity. -/
def simGe (a b : Nat × ℚ) : Prop := b.2 ≤ a.2

instance : DecidableRel simGe := fun a b => by unfold simGe; infer_instance

/-- Python `sorted(record_sim_store.items(), key=lambda item: item[1],
reverse=True)` (line 174): a stable descending sort on the similarity
component.  Any stable sort computes the same list, so insertion sort models
CPython's stable sort exactly. -/
def sortDescBySim (l : List (Nat × ℚ)) : List (Nat × ℚ) :=
  l.insertionSort simGe

/-- The initial integer signature stored under `SIGNATURE_ATTR` (lines
177-180): the sorted similarity store truncated to
`min(init_sign_length, non_zero_count_per_record)` entries. -/
def intSignature (recQ : Finset String) (indexedR : List (Finset String))
    (initSignLength : Nat) : List (Nat × ℚ) :=
  (sortDescBySim (simStore recQ indexedR)).take
    (min initSignLength (simStore recQ indexedR).length)

/-- A record after `gen_init_int_signature`: identifier, `record_q_gram` set and
initial integer signature. -/
abbrev RecordOut := String × Finset String × List (Nat × ℚ)

instance : DecidableEq (List RecordOut) := inferInstance

def sigLen (r : RecordOut) : Nat := r.2.2.length

/-- `gen_init_int_signature` (data_encoder.py lines 152-183): attaches the
initial integer signature to every record and returns
`min(len(rec[SIGNATURE_ATTR]) for rec in record_store.values())` together with
the updated store.  `min()` over an empty store raises `ValueError` (`none`). -/
def gen_init_int_signature (recordStore : List (String × Finset String))
    (indexedR : List (Finset String)) (initSignLength : Nat) :
    Option (Nat × List RecordOut) :=
  let store := recordStore.map (fun r => (r.1, r.2, intSignature r.2 indexedR initSignLength))
  match store.map sigLen with
  | [] => none
  | x :: xs => some (xs.foldl min x, store)

/-- The `for pos in positions` loop of `generate_bit_array_signature`
(data_encoder.py lines 199-201): each position is asserted in range and its bit
set to 1; a failing `assert` is `none`. -/
def setBits (bitArrayLength : Nat) : List Bool → List Nat → Option (List Bool)
  | ba, [] => some ba
  | ba, pos :: ps =>
    if pos < bitArrayLength then setBits bitArrayLength (ba.set pos true) ps else none

/-- `generate_bit_array_signature` (data_encoder.py lines 186-203): an all-zero
bit array of the given length, with the listed positions set to 1. -/
def generate_bit_array_signature (bitArrayLength : Nat) (positions : List Nat) :
    Option (List Bool) :=
  setBits bitArrayLength (List.replicate bitArrayLength false) positions

/-- A Python `for` loop that rebuilds a dict entry by entry and raises at the
first failing entry (shared shape of `extract_signatures` and the final loop of
`generate_random_q_gram_sets`). -/
def mapOpt {α β : Type} (f : α → Option β) : List α → Option (List β)
  | [] => some []
  | a :: l =>
    match f a with
    | none => none
    | some b =>
      match mapOpt f l with
      | none => none
      | some bs => some (b :: bs)

/-- `extract_signatures` (data_encoder.py lines 206-232): for each record,
asserts `len(record_sim_store) >= n1_bits`, takes the first `n1_bits` indices
of its integer signature and builds the bit-array of length
`len(indexed_ref_sets)`. -/
def extract_signatures (indexedRefSets : List (Finset String)) (store : List RecordOut)
    (n1Bits : Nat) : Option (List (String × List Bool)) :=
  let qsRCount := indexedRefSets.length
  mapOpt (fun r =>
    if n1Bits ≤ sigLen r then
      (generate_bit_array_signature qsRCount ((r.2.2.take n1Bits).map Prod.fst)).map
        (fun ba => (r.1, ba))
    else none) store

/-- Python iterable unpacking `a, b = xs` of a returned value: succeeds exactly
when the iterable yields exactly two items (a dict yields its keys); any other
length raises `ValueError`.  Used at ref_set_processor.py line 190 and
data_encoder.py lines 291/294, where a single dict is unpacked into two
variables. -/
def unpackTwo {α : Type} (xs : List α) : Option (α × α) :=
  match xs with
  | [a, b] => some (a, b)
  | _ => none

/-! ## ref_set_processor.py -/

/-- One entry of `weighed_random_sets` (ref_set_processor.py): the value dict
with keys `RANDOM_Q_GRAM_SET_ATTR_WITH_FREQ`, `RANDOM_SET_ONLY_ATTR` and
`WEIGHTED_SCORE_ATTR`.  The `pairs` value is a Python list (one pair per member
of the reference set as read from file) that becomes a Python set after the
first accepted swap; the set is represented by a duplicate-free list holding
its elements (see `pySetRepr`) — every use the code makes of it (sorting by the
total key `(frequency, q-gram)`, sums, lengths, membership) is insensitive to
the representation order. -/
structure WeighedSet where
  pairs : List (String × ℚ)
  set_only : Finset String
  weighted_score : ℚ
deriving DecidableEq

instance (priority := high) : BEq (String × ℚ) := instBEqOfDecidableEq

instance (priority := high) : LawfulBEq (String × ℚ) where
  eq_of_beq h := of_decide_eq_true h
  rfl := decide_eq_true rfl

/-- The pool `weighed_random_sets`: a dict from reference-set index to weighed
set, in key insertion order 0,1,2,.... -/
abbrev Pool := List (Nat × WeighedSet)

/-- Strict comparison of the key tuples `(x[1][WEIGHTED_SCORE_ATTR], x[0])`
used by the `min`/`max` calls of lines 28-29 (lexicographic on score, then
dict key). -/
def qnLt (a b : ℚ × Nat) : Prop := a.1 < b.1 ∨ (a.1 = b.1 ∧ a.2 < b.2)

instance : DecidableRel qnLt := fun a b => by unfold qnLt; infer_instance

/-- Reflexive closure of `qnLt`. -/
def qnLe (a b : ℚ × Nat) : Prop := a.1 < b.1 ∨ (a.1 = b.1 ∧ a.2 ≤ b.2)

def entryKey (e : Nat × WeighedSet) : ℚ × Nat := (e.2.weighted_score, e.1)

/-- One comparison step of Python `min(..., key=...)`: the running best is
replaced only by a strictly smaller key. -/
def minStep (best : Option (Nat × WeighedSet)) (x : Nat × WeighedSet) :
    Option (Nat × WeighedSet) :=
  match best with
  | none => some x
  | some b => if qnLt (entryKey x) (entryKey b) then some x else some b

/-- One comparison step of Python `max(..., key=...)`: the running best is
replaced only by a strictly larger key. -/
def maxStep (best : Option (Nat × WeighedSet)) (x : Nat × WeighedSet) :
    Option (Nat × WeighedSet) :=
  match best with
  | none => some x
  | some b => if qnLt (entryKey b) (entryKey x) then some x else some b

/-- `min(weighed_random_sets.items(), key=lambda x: (x[1][WEIGHTED_SCORE_ATTR],
x[0]))` (line 28). -/
def pyMinBy (pool : Pool) : Option (Nat × WeighedSet) :=
  pool.foldl minStep none

/-- `max(weighed_random_sets.items(), key=lambda x: (x[1][WEIGHTED_SCORE_ATTR],
x[0]))` (line 29). -/
def pyMaxBy (pool : Pool) : Option (Nat × WeighedSet) :=
  pool.foldl maxStep none

/-- The sort key `lambda x: (x[1], x[0])` of lines 31-32: compare by frequency,
then by q-gram.  This is a total order on pairs, so the sorted lists are
independent of the iteration order of the underlying list or set. -/
def pairLe (a b : String × ℚ) : Prop := a.2 < b.2 ∨ (a.2 = b.2 ∧ a.1 ≤ b.1)

instance : DecidableRel pairLe := fun a b => by unfold pairLe; infer_instance

instance : IsTrans (String × ℚ) pairLe where
  trans a b c hab hbc := by
    rcases hab with h | ⟨h1, h2⟩ <;> rcases hbc with g | ⟨g1, g2⟩
    · exact Or.inl (h.trans g)
    · exact Or.inl (g1 ▸ h)
    · exact Or.inl (h1 ▸ g)
    · exact Or.inr ⟨h1.trans g1, h2.trans g2⟩

instance : IsAntisymm (String × ℚ) pairLe where
  antisymm a b hab hba := by
    rcases hab with h | ⟨h1, h2⟩ <;> rcases hba with g | ⟨g1, g2⟩
    · exact absurd g (not_lt.mpr h.le)
    · exact absurd h (not_lt.mpr g1.le)
    · exact absurd g (not_lt.mpr h1.le)
    · exact Prod.ext (le_antisymm h2 g2) h1

instance : IsTotal (String × ℚ) pairLe where
  total a b := by
    rcases lt_trichotomy a.2 b.2 with h | h | h
    · exact Or.inl (Or.inl h)
    · rcases le_total a.1 b.1 with g | g
      · exact Or.inl (Or.inr ⟨h, g⟩)
      · exact Or.inr (Or.inr ⟨h.symm, g⟩)
    · exact Or.inr (Or.inl h)

/-- `sorted(min_set[...], key=lambda x: (x[1], x[0]))` (line 32).  The key is a
total order on pairs, so the sorted list does not depend on the iteration
order of the sorted collection. -/
def sortedAsc (l : List (String × ℚ)) : List (String × ℚ) := l.insertionSort pairLe

/-- `sorted(max_set[...], key=lambda x: (x[1], x[0]), reverse=True)` (line 31);
with a total key, the descending sort is the reverse of the ascending one. -/
def sortedDesc (l : List (String × ℚ)) : List (String × ℚ) := (sortedAsc l).reverse

/-- A Python set built from the elements of a list (a set comprehension),
represented as the duplicate-free list of its elements in first-occurrence
order; all downstream uses are order-insensitive. -/
def pySetRepr (l : List (String × ℚ)) : List (String × ℚ) := l.dedup

/-- `sum(x[1] for x in v) / len(v)` — the recomputed mean weight of a modified
reference set (lines 46-47). -/
def setScore (l : List (String × ℚ)) : ℚ := (l.map Prod.snd).sum / (l.length : ℚ)

/-- Data of an accepted candidate swap found by the scan of lines 37-49. -/
structure SwapFound where
  minElt : String × ℚ
  maxElt : String × ℚ
  modMin : List (String × ℚ)
  modMax : List (String × ℚ)
  wMin : ℚ
  wMax : ℚ
deriving DecidableEq

/-- Examination of one `(min_element, max_element)` candidate (lines 42-50).
`modified_min_value` / `modified_max_value` are the set comprehensions
replacing the one element by the other.  The test `new_range < old_range and
modified_min_value not in random_sets and modified_max_value not in
random_sets`: `random_sets` (line 22) holds *tuples* of the original pair
lists, while the modified values are Python *sets*; `set.__contains__` hashes
its argument via an implicit frozenset conversion, and a frozenset never
equals a tuple, so the two `not in` conjuncts are always true and only the
range comparison decides.  They are therefore modelled as the constant true
condition (omitted). -/
def tryPair (minPairs maxPairs : List (String × ℚ)) (oldRange : ℚ)
    (minElt maxElt : String × ℚ) : Option SwapFound :=
  let modMin := pySetRepr (minPairs.map (fun e => if e = minElt then maxElt else e))
  let modMax := pySetRepr (maxPairs.map (fun e => if e = maxElt then minElt else e))
  let wMin := setScore modMin
  let wMax := setScore modMax
  if |wMax - wMin| < oldRange then some ⟨minElt, maxElt, modMin, modMax, wMin, wMax⟩
  else none

/-- The double scan of lines 37-49: first `min_element` of the ascending sorted
min set that is absent from the sorted max set, paired with the first
`max_element` of the descending sorted max set that is absent from the sorted
min set, has strictly larger frequency, and passes the acceptance test. -/
def scanPairs (sortedMinSet sortedMaxSet : List (String × ℚ))
    (minPairs maxPairs : List (String × ℚ)) (oldRange : ℚ) : Option SwapFound :=
  sortedMinSet.findSome? (fun minElt =>
    if minElt ∈ sortedMaxSet then none
    else sortedMaxSet.findSome? (fun maxElt =>
      if maxElt ∉ sortedMinSet ∧ minElt.2 < maxElt.2 then
        tryPair minPairs maxPairs oldRange minElt maxElt
      else none))

/-- In-place update of the dict entry at `key` (lines 62-70): the pair set, the
recomputed `set_only` projection and the new weighted score. -/
def updatePool (pool : Pool) (key : Nat) (newPairs : List (String × ℚ)) (w : ℚ) : Pool :=
  pool.map (fun e =>
    if e.1 = key then (key, ⟨newPairs, (newPairs.map Prod.fst).toFinset, w⟩) else e)

/-- Result of one iteration of the outer `while` of
`frequency_based_rank_swapping`: an exception (`err`), normal halting with the
final pool (`stop`), or an accepted swap (`swapped pool' old_range new_range`). -/
inductive SwapStepResult where
  | err : SwapStepResult
  | stop : Pool → SwapStepResult
  | swapped : Pool → ℚ → ℚ → SwapStepResult
deriving DecidableEq

/-- One iteration of the outer loop of `frequency_based_rank_swapping`
(ref_set_processor.py lines 27-89).  `min`/`max` over an empty dict raise
(`err`).  On an accepted swap the `assert` of line 58 (cardinality of the
modified min value only) is checked, both entries are updated in place and the
outer loop restarts.  When no candidate is accepted: if no `min_element` was
absent from the sorted max set, the local `max_element_index` was never bound
and the `assert` of line 85 raises `NameError` (`err`); otherwise both asserts
pass and swapping stops, returning the pool. -/
def swapStep (pool : Pool) : SwapStepResult :=
  match pyMinBy pool, pyMaxBy pool with
  | some mn, some mx =>
    let sortedMaxSet := sortedDesc mx.2.pairs
    let sortedMinSet := sortedAsc mn.2.pairs
    let oldRange := mx.2.weighted_score - mn.2.weighted_score
    match scanPairs sortedMinSet sortedMaxSet mn.2.pairs mx.2.pairs oldRange with
    | some f =>
      if f.modMin.length = mn.2.pairs.length then
        .swapped (updatePool (updatePool pool mn.1 f.modMin f.wMin) mx.1 f.modMax f.wMax)
          oldRange |f.wMax - f.wMin|
      else .err
    | none =>
      if sortedMinSet.all (fun e => decide (e ∈ sortedMaxSet)) then .err
      else .stop pool
  | _, _ => .err

/-- `frequency_based_rank_swapping` (ref_set_processor.py lines 13-95), with
fuel for the unbounded outer loop.  Returns the pool dict on normal
termination. -/
def frequency_based_rank_swapping : Nat → Pool → Option Pool
  | 0, _ => none
  | fuel + 1, pool =>
    match swapStep pool with
    | .err => none
    | .stop p => some p
    | .swapped p _ _ => frequency_based_rank_swapping fuel p

/-- The pool-wide weight spread: maximum minus minimum `weighted_score`
(0 for an empty pool, where the code would raise instead). -/
def poolSpread (pool : Pool) : ℚ :=
  match pyMinBy pool, pyMaxBy pool with
  | some mn, some mx => mx.2.weighted_score - mn.2.weighted_score
  | _, _ => 0

/-- Well-formedness of one pool entry, as established by `weigh_random_sets`
for reference sets of uniform length `n`: a duplicate-free pair list of length
`n` whose stored score is the mean of its frequencies. -/
def entryWF (n : Nat) (e : Nat × WeighedSet) : Prop :=
  e.2.pairs.Nodup ∧ e.2.pairs.length = n ∧ e.2.weighted_score = setScore e.2.pairs

/-- Pool-wide well-formedness: all reference sets have the same positive
length `n` (the `r_length` invariant of the data model) and consistent
scores. -/
def PoolWF (n : Nat) (pool : Pool) : Prop := 0 < n ∧ ∀ e ∈ pool, entryWF n e

/-- Frequencies are a function of the q-gram (as produced by
`weigh_random_sets`, which pairs every q-gram with its unique looked-up
frequency): two pairs anywhere in the pool with the same q-gram carry the same
frequency. -/
def FreqFun (pool : Pool) : Prop :=
  ∀ e1 ∈ pool, ∀ e2 ∈ pool, ∀ p ∈ (e1 : Nat × WeighedSet).2.pairs,
    ∀ q ∈ (e2 : Nat × WeighedSet).2.pairs, p.1 = q.1 → p.2 = q.2

/-- `set_only` consistency: each entry's member set is the projection of its
pair list (established by `weigh_random_sets` and re-established by every
update of the swap loop). -/
def SetOnlyWF (pool : Pool) : Prop :=
  ∀ e ∈ pool, (e : Nat × WeighedSet).2.set_only = ((e : Nat × WeighedSet).2.pairs.map Prod.fst).toFinset

instance (n : Nat) (e : Nat × WeighedSet) : Decidable (entryWF n e) := by
  unfold entryWF; infer_instance

instance (n : Nat) (pool : Pool) : Decidable (PoolWF n pool) := by
  unfold PoolWF; infer_instance

instance (pool : Pool) : Decidable (FreqFun pool) := by
  unfold FreqFun; infer_instance

instance (pool : Pool) : Decidable (SetOnlyWF pool) := by
  unfold SetOnlyWF; infer_instance

/-- One entry of `weigh_random_sets` (ref_set_processor.py lines 139-154):
each member q-gram is paired with its public frequency (default 1 when absent
from the table) and the score is the mean frequency computed over the row. -/
def mkWeighed (row : List String) (freq : String → Option Int) : WeighedSet :=
  let qsRWithFreq := row.map (fun g => (g, (((freq g).getD 1 : Int) : ℚ)))
  { pairs := qsRWithFreq
    set_only := row.toFinset
    weighted_score := (qsRWithFreq.map Prod.snd).sum / (qsRWithFreq.length : ℚ) }

/-- `weigh_random_sets` (ref_set_processor.py lines 128-156), with
`random_sets` the dict built by `read_init_random_sets` from `enumerate`:
keys are the row positions 0,1,2,.... -/
def weigh_random_sets (rows : List (List String)) (freq : String → Option Int) : Pool :=
  (rows.map (fun row => mkWeighed row freq)).enum

/-- `RandomQgramSetGenerator.generate_random_q_gram_sets` (ref_set_processor.py
lines 168-220), from the already-read inputs.  `min`/`max` over an empty pool
(lines 176-177) raise.  With swapping enabled, line 190 unpacks the single dict
returned by `frequency_based_rank_swapping` into two variables: if the dict has
exactly two keys the unpacking binds `processed_indexed_r` to an integer key
and line 197 then raises `AttributeError` on `.items()`; any other size raises
`ValueError` at the unpacking itself — either way the call never returns.
Finally the per-entry assertions of lines 215-217 are checked and each entry is
replaced by its member set. -/
def generate_random_q_gram_sets (fuel : Nat) (rows : List (List String))
    (freq : String → Option Int) (doSwap : Bool) : Option (List (Nat × Finset String)) :=
  let weighed := weigh_random_sets rows freq
  if weighed.isEmpty then none
  else
    let processed? : Option Pool :=
      if doSwap then
        match frequency_based_rank_swapping fuel weighed with
        | none => none
        | some d =>
          match unpackTwo (d.map Prod.fst) with
          | some _ => none
          | none => none
      else some weighed
    match processed? with
    | none => none
    | some processed =>
      mapOpt (fun e =>
        if (∀ g ∈ e.2.set_only, g.length = 2) ∧ e.2.set_only.card = e.2.pairs.length then
          some (e.1, e.2.set_only)
        else none) processed

/-- The driver of data_encoder.py (`__main__`, lines 254-294) from the point
where both record q-gram stores have been loaded (file reading, the header
consistency assert and console reporting are external I/O, out of scope).
`calculate_average_len` takes `min(..., key=len)` of all record q-gram sets of
both datasets (raises on no records); `initial_ls = (k+1) *
min_q_gram_length`; then both datasets are signed and encoded.  Lines 291 and
294 unpack the single dict returned by `extract_signatures` into two
variables, which succeeds only when the dict holds exactly two records (the
two variables are then bound to the two record keys, and the script ends). -/
def driver_core (fuel k : Nat) (data1 data2 : List (String × Finset String))
    (rows : List (List String)) (freq : String → Option Int) (mustSwap : Bool) :
    Option ((String × String) × (String × String)) :=
  let dbQs := data1.map (fun r => r.2) ++ data2.map (fun r => r.2)
  match dbQs.map Finset.card with
  | [] => none
  | c :: cs =>
    let minQGramLength := cs.foldl min c
    match generate_random_q_gram_sets fuel rows freq mustSwap with
    | none => none
    | some refS =>
      let indexedR := refS.map Prod.snd
      let initialLs := (k + 1) * minQGramLength
      match gen_init_int_signature data1 indexedR initialLs with
      | none => none
      | some (b1, store1) =>
        match gen_init_int_signature data2 indexedR initialLs with
        | none => none
        | some (b2, store2) =>
          let num1Bits := min b1 b2
          match extract_signatures indexedR store1 num1Bits with
          | none => none
          | some out1 =>
            match unpackTwo (out1.map Prod.fst) with
            | none => none
            | some p1 =>
              match extract_signatures indexedR store2 num1Bits with
              | none => none
              | some out2 =>
                match unpackTwo (out2.map Prod.fst) with
                | none => none
                | some p2 => some (p1, p2)

/-! ## generator.py -/

/-- The dict `q_gram_counter` of `ref_set_generator`: occurrence-count key to
the list of q-grams currently placed in exactly that many generated sets,
modelled as an association list (key iteration order only matters through
`min`, which is order-insensitive). -/
abbrev Counter := List (Nat × List String)

def clookup : Counter → Nat → Option (List String)
  | [], _ => none
  | e :: es, key => if e.1 = key then some e.2 else clookup es key

def csetKey : Counter → Nat → List String → Counter
  | [], key, v => [(key, v)]
  | e :: es, key, v => if e.1 = key then (key, v) :: es else e :: csetKey es key v

def ceraseKey : Counter → Nat → Counter
  | [], _ => []
  | e :: es, key => if e.1 = key then es else e :: ceraseKey es key

/-- `min(q_gram_counter.keys())` (generator.py line 74). -/
def minKey : Counter → Option Nat
  | [] => none
  | e :: es =>
    some (match minKey es with
      | none => e.1
      | some m => min e.1 m)

/-- `check_q_gram_availability` (generator.py lines 43-47): true iff no key
below `k` has a nonempty bucket. -/
def check_q_gram_availability (c : Counter) (k : Nat) : Bool :=
  c.all (fun e => !(decide (e.1 < k) && !(e.2.isEmpty)))

/-- The effect of one step of `update_q_gram_counter` (generator.py lines
52-58) once the bucket is known and contains the q-gram: remove the q-gram,
delete the bucket if it emptied, and append the q-gram to the next-higher
bucket (created when absent). -/
def moveOneGo (c : Counter) (key : Nat) (g : String) (bucket : List String) : Counter :=
  let bucket' := bucket.erase g
  let c1 := if bucket'.isEmpty then ceraseKey c key else csetKey c key bucket'
  let nextBucket := (clookup c1 (key + 1)).getD []
  csetKey c1 (key + 1) (nextBucket ++ [g])

/-- One step of `update_q_gram_counter` (generator.py lines 50-59) for a single
q-gram: `q_gram_counter[key].remove(q_gram)` (`KeyError` if the key is absent,
`ValueError` if the q-gram is not in the bucket, both `none`), deletion of the
emptied bucket, and append to the next-higher bucket (created when absent). -/
def moveOne (c : Counter) (key : Nat) (g : String) : Option Counter :=
  match clookup c key with
  | none => none
  | some bucket => if g ∈ bucket then some (moveOneGo c key g bucket) else none

/-- `update_q_gram_counter` (generator.py lines 50-59): move every listed
q-gram from bucket `key` to bucket `key+1`. -/
def update_q_gram_counter (c : Counter) (qGrams : List String) (key : Nat) : Option Counter :=
  qGrams.foldlM (fun acc g => moveOne acc key g) c

/-- Guarded `random.sample(l, k=n)`: defined when `0 ≤ n ≤ len(l)`, otherwise
`ValueError` (`none`).  The sampler oracle is consulted with the current tick. -/
def sampleCall (sampler : Nat → List String → Nat → List String) (t : Nat)
    (l : List String) (n : Int) : Option (List String) :=
  if 0 ≤ n ∧ n ≤ (l.length : Int) then some (sampler t l n.toNat) else none

/-- Promises kept by `random.sample` from a duplicate-free population: the
result has the requested length, consists of elements of the population, and is
itself duplicate-free when the population is. -/
def SampleOK (sampler : Nat → List String → Nat → List String) : Prop :=
  ∀ t l n, n ≤ l.length →
    (sampler t l n).length = n ∧ (∀ x ∈ sampler t l n, x ∈ l) ∧
      (l.Nodup → (sampler t l n).Nodup)

/-- State of `ref_set_generator`'s loops: the accumulated `ref_sets`, the
bucket dict `q_gram_counter`, and the sampler tick. -/
structure GenSt where
  refSets : List (Finset String)
  counter : Counter
  tick : Nat
deriving DecidableEq

/-- The acceptance idiom shared by the three generating branches of
`ref_set_generator` (generator.py lines 89-95, 101-104 and 112-118): reject a
candidate already in `ref_sets` (retry), otherwise move every used q-gram
group up one bucket with `update_q_gram_counter` and check the
`assert len(qs_r) == r_length` of line 120 (`none` on failure). -/
def acceptCandidate (rLength : Nat) (st : GenSt) (newTick : Nat) (qsR : Finset String)
    (groups : List (List String × Nat)) : Option (Bool × GenSt) :=
  if qsR ∈ st.refSets then some (false, { st with tick := newTick })
  else
    match groups.foldlM (fun c g => update_q_gram_counter c g.1 g.2) st.counter with
    | none => none
    | some c2 =>
      if qsR.card = rLength then some (true, ⟨st.refSets ++ [qsR], c2, newTick⟩)
      else none

/-- One iteration of the inner `while not did_generate_successfully` loop of
`ref_set_generator` (generator.py lines 79-120), with `tryCounter` already
incremented (line 80).  `snapshot` is `q_grams_in_smallest_key`, the copy of
bucket `counterKey` taken at line 75 (the bucket is not modified by failing
iterations, so the copy stays equal to the bucket).  Returns
`some (did_generate_successfully, st')`, or `none` when the Python code raises
(`KeyError` on a missing `counter_key+1` bucket, a failing sample, or the
`assert len(qs_r) == r_length` of line 120).  Note `r_length - 1 != 0` is
evaluated in ℤ, and the variety branch has no fallback: when its conditions
fail nothing is generated and the attempt simply fails. -/
def genAttempt (rLength : Nat) (sampler : Nat → List String → Nat → List String)
    (counterKey : Nat) (snapshot : List String) (tryCounter : Nat) (st : GenSt) :
    Option (Bool × GenSt) :=
  if rLength ≤ snapshot.length then
    if snapshot.length = rLength ∧ 1 < tryCounter then
      match sampleCall sampler st.tick snapshot 1 with
      | none => none
      | some pick1 =>
        if (rLength : Int) - 1 ≠ 0 then
          match clookup st.counter (counterKey + 1) with
          | none => none
          | some nextBucket =>
            if (rLength : Int) - 1 ≤ (nextBucket.length : Int) then
              match sampleCall sampler (st.tick + 1) nextBucket ((rLength : Int) - 1) with
              | none => none
              | some picksNext =>
                acceptCandidate rLength st (st.tick + 2) ((pick1 ++ picksNext).toFinset)
                  [(pick1, counterKey), (picksNext, counterKey + 1)]
            else some (false, { st with tick := st.tick + 1 })
        else some (false, { st with tick := st.tick + 1 })
    else
      match sampleCall sampler st.tick snapshot (rLength : Int) with
      | none => none
      | some picks =>
        acceptCandidate rLength st (st.tick + 1) picks.toFinset [(picks, counterKey)]
  else
    let slackElements := rLength - snapshot.length
    match clookup st.counter (counterKey + 1) with
    | none => none
    | some nextBucket =>
      if slackElements ≤ nextBucket.length then
        match sampleCall sampler st.tick nextBucket (slackElements : Int) with
        | none => none
        | some picksNext =>
          acceptCandidate rLength st (st.tick + 1) ((snapshot ++ picksNext).toFinset)
            [(snapshot, counterKey), (picksNext, counterKey + 1)]
      else some (false, st)

/-- The inner retry loop (generator.py lines 79-120), with fuel. -/
def genInner (rLength : Nat) (sampler : Nat → List String → Nat → List String)
    (counterKey : Nat) (snapshot : List String) :
    Nat → Nat → GenSt → Option GenSt
  | 0, _, _ => none
  | fuel + 1, tryCounter, st =>
    match genAttempt rLength sampler counterKey snapshot (tryCounter + 1) st with
    | none => none
    | some (true, st') => some st'
    | some (false, st') => genInner rLength sampler counterKey snapshot fuel (tryCounter + 1) st'

/-- The outer `while not check_q_gram_availability(...)` loop of
`ref_set_generator` (generator.py lines 73-121), with fuel. -/
def genOuter (rLength : Nat) (sampler : Nat → List String → Nat → List String) (k : Nat) :
    Nat → GenSt → Option (List (Finset String))
  | 0, _ => none
  | fuel + 1, st =>
    if check_q_gram_availability st.counter k then some st.refSets
    else
      match minKey st.counter with
      | none => none
      | some counterKey =>
        match clookup st.counter counterKey with
        | none => none
        | some bucket =>
          match genInner rLength sampler counterKey bucket fuel 0 st with
          | none => none
          | some st' => genOuter rLength sampler k fuel st'

/-- `ref_set_generator` (generator.py lines 62-124): bucket 0 holds the whole
alphabet `q_c`, buckets 1..k start empty. -/
def ref_set_generator (fuel rLength : Nat) (q_c : List String)
    (sampler : Nat → List String → Nat → List String) (k : Nat) :
    Option (List (Finset String)) :=
  let counter0 : Counter := (List.range (k + 1)).map (fun i => (i, if i = 0 then q_c else []))
  genOuter rLength sampler k fuel ⟨[], counter0, 0⟩

/-- Number of generated sets the q-gram `g` belongs to (its true occurrence
count, which the bucket key of `g` tracks). -/
def occ (sets : List (Finset String)) (g : String) : Nat :=
  sets.countP (fun s => decide (g ∈ s))

/-- Position map after one q-gram moves up a bucket. -/
def bump (pos : String → Nat) (g : String) : String → Nat :=
  fun h => if h = g then pos h + 1 else pos h

/-- Position map after a group of q-grams moves up a bucket. -/
def bumpAll (pos : String → Nat) (gs : List String) : String → Nat :=
  fun h => if h ∈ gs then pos h + 1 else pos h

/-- Invariant of the bucket dict `q_gram_counter` relative to a position map
`pos` (for the running generator, `pos = occ ref_sets`): keys are unique,
buckets are duplicate-free lists of alphabet q-grams, and every alphabet
q-gram lies in the bucket keyed by its position and in no other bucket. -/
structure CInv (alpha : List String) (pos : String → Nat) (c : Counter) : Prop where
  keysNodup : (c.map Prod.fst).Nodup
  bucketsNodup : ∀ key b, clookup c key = some b → b.Nodup
  bucketsSub : ∀ key b, clookup c key = some b → ∀ g ∈ b, g ∈ alpha
  located : ∀ g ∈ alpha, ∃ b, clookup c (pos g) = some b ∧ g ∈ b
  uniq : ∀ key b g, clookup c key = some b → g ∈ b → key = pos g

/-! ## Concrete fixtures used by witnesses and counterexamples -/

/-- A pool in which the accepted swap turns entry 0 into a duplicate of
entry 1: scores are 1, 5, 7; the scan swaps ("a",1) of entry 0 with ("c",9) of
entry 2. -/
def poolC5 : Pool :=
  [(0, ⟨[("a", 1), ("b", 1)], {"a", "b"}, 1⟩),
   (1, ⟨[("b", 1), ("c", 9)], {"b", "c"}, 5⟩),
   (2, ⟨[("c", 9), ("d", 5)], {"c", "d"}, 7⟩)]

/-- A two-set pool with scores 1 and 7 admitting one accepted swap. -/
def poolW : Pool :=
  [(0, ⟨[("a", 1), ("b", 1)], {"a", "b"}, 1⟩),
   (1, ⟨[("c", 9), ("d", 5)], {"c", "d"}, 7⟩)]

/-- The pool produced from `poolW` by its one accepted swap. -/
def poolWAfter : Pool :=
  [(0, ⟨[("c", 9), ("b", 1)], ({"c", "b"} : Finset String), 5⟩),
   (1, ⟨[("a", 1), ("d", 5)], ({"a", "d"} : Finset String), 3⟩)]

/-- The pool produced from `poolC5` by the accepted swap: its entries 0 and 1
now hold identical member sets. -/
def poolC5After : Pool :=
  [(0, ⟨[("c", 9), ("b", 1)], ({"c", "b"} : Finset String), 5⟩),
   (1, ⟨[("b", 1), ("c", 9)], {"b", "c"}, 5⟩),
   (2, ⟨[("a", 1), ("d", 5)], ({"a", "d"} : Finset String), 3⟩)]

/-- A pool of two sets with equal weighted scores. -/
def poolC7 : Pool :=
  [(0, ⟨[("a", 1)], {"a"}, 1⟩), (1, ⟨[("b", 1)], {"b"}, 1⟩)]

/-- A deterministic sampler: take the first `n` elements of the population. -/
def takeSampler : Nat → List String → Nat → List String := fun _ l n => l.take n

/-- Generator state for the variety-branch witness: two accepted sets pending,
bucket 0 holding exactly `r_length = 2` q-grams and bucket 1 holding two. -/
def stC8 : GenSt := ⟨[], [(0, ["aa", "bb"]), (1, ["cc", "dd"])], 0⟩

/-- The state after the successful variety-branch attempt from `stC8`. -/
def stC8' : GenSt :=
  ⟨[({"aa", "cc"} : Finset String)], [(0, ["bb"]), (1, ["dd", "aa"]), (2, ["cc"])], 2⟩

end RSE

namespace RSE

/-! ## Library-style helper lemmas -/

theorem mapOpt_spec {α β : Type} (f : α → Option β) :
    ∀ (l : List α) (out : List β), mapOpt f l = some out →
      out.length = l.length ∧
        ∀ (i : Nat) (a : α), l[i]? = some a → ∃ b : β, out[i]? = some b ∧ f a = some b := by
  intro l
  induction l with
  | nil =>
    intro out h
    simp only [mapOpt, Option.some.injEq] at h
    subst h
    simp
  | cons a l ih =>
    intro out h
    simp only [mapOpt] at h
    cases hfa : f a with
    | none => rw [hfa] at h; simp at h
    | some b =>
      rw [hfa] at h
      cases hml : mapOpt f l with
      | none => rw [hml] at h; simp at h
      | some bs =>
        rw [hml] at h
        simp only [Option.some.injEq] at h
        subst h
        obtain ⟨hlen, hget⟩ := ih bs hml
        refine ⟨by simp [hlen], ?_⟩
        intro i x hx
        cases i with
        | zero =>
          simp only [List.getElem?_cons_zero, Option.some.injEq] at hx
          subst hx
          exact ⟨b, by simp, hfa⟩
        | succ i =>
          simp only [List.getElem?_cons_succ] at hx ⊢
          exact hget i x hx

theorem mapOpt_eq_map {α β : Type} (f : α → Option β) (g : α → β) :
    ∀ l : List α, (∀ a ∈ l, f a = some (g a)) → mapOpt f l = some (l.map g) := by
  intro l
  induction l with
  | nil => intro _; rfl
  | cons a l ih =>
    intro h
    simp only [mapOpt, h a (by simp), ih (fun x hx => h x (by simp [hx])), List.map_cons]

theorem count_true_set (l : List Bool) (p : Nat) (h : l[p]? = some false) :
    (l.set p true).count true = l.count true + 1 := by
  induction l generalizing p with
  | nil => simp at h
  | cons b t ih =>
    cases p with
    | zero =>
      simp only [List.getElem?_cons_zero, Option.some.injEq] at h
      subst h
      simp [List.count_cons]
    | succ p =>
      simp only [List.getElem?_cons_succ] at h
      simp only [List.set_cons_succ, List.count_cons, ih p h]
      omega

theorem setBits_length (len : Nat) :
    ∀ (ps : List Nat) (ba ba' : List Bool), setBits len ba ps = some ba' →
      ba'.length = ba.length := by
  intro ps
  induction ps with
  | nil => intro ba ba' h; simp only [setBits, Option.some.injEq] at h; simp [h]
  | cons p ps ih =>
    intro ba ba' h
    simp only [setBits] at h
    split at h
    · exact (ih _ _ h).trans (by simp)
    · exact absurd h (by simp)

theorem setBits_mem_lt (len : Nat) :
    ∀ (ps : List Nat) (ba ba' : List Bool), setBits len ba ps = some ba' →
      ∀ p ∈ ps, p < len := by
  intro ps
  induction ps with
  | nil => intro ba ba' _ p hp; simp at hp
  | cons q ps ih =>
    intro ba ba' h p hp
    simp only [setBits] at h
    split at h
    · rcases List.mem_cons.mp hp with rfl | hp'
      · assumption
      · exact ih _ _ h p hp'
    · exact absurd h (by simp)

theorem setBits_getElem (len : Nat) :
    ∀ (ps : List Nat) (ba ba' : List Bool), setBits len ba ps = some ba' →
      ba.length = len → ∀ j, (ba'[j]? = some true ↔ (j ∈ ps ∨ ba[j]? = some true)) := by
  intro ps
  induction ps with
  | nil =>
    intro ba ba' h _ j
    simp only [setBits, Option.some.injEq] at h
    subst h
    simp
  | cons p ps ih =>
    intro ba ba' h hlen j
    simp only [setBits] at h
    split at h
    case isTrue hp =>
      have hrec := ih (ba.set p true) ba' h (by simp [hlen]) j
      rw [hrec]
      have hset : (ba.set p true)[j]? = some true ↔ (j = p ∨ ba[j]? = some true) := by
        rw [List.getElem?_set]
        by_cases hj : p = j
        · subst hj
          have : p < ba.length := by omega
          simp [this]
        · have hj' : j ≠ p := fun e => hj e.symm
          simp [hj, hj']
      rw [hset]
      constructor
      · rintro (h1 | h2 | h3)
        · exact Or.inl (List.mem_cons_of_mem _ h1)
        · exact Or.inl (h2 ▸ List.mem_cons_self _ _)
        · exact Or.inr h3
      · rintro (h1 | h2)
        · rcases List.mem_cons.mp h1 with rfl | h1'
          · exact Or.inr (Or.inl rfl)
          · exact Or.inl h1'
        · exact Or.inr (Or.inr h2)
    · exact absurd h (by simp)

theorem setBits_count (len : Nat) :
    ∀ (ps : List Nat) (ba ba' : List Bool), setBits len ba ps = some ba' →
      ps.Nodup → (∀ p ∈ ps, ba[p]? = some false) →
      ba'.count true = ba.count true + ps.length := by
  intro ps
  induction ps with
  | nil =>
    intro ba ba' h _ _
    simp only [setBits, Option.some.injEq] at h
    simp [h]
  | cons p ps ih =>
    intro ba ba' h hnd hz
    simp only [setBits] at h
    split at h
    · have hbaP : ba[p]? = some false := hz p (by simp)
      have hrest : ∀ q ∈ ps, (ba.set p true)[q]? = some false := by
        intro q hq
        rw [List.getElem?_set]
        have hpq : p ≠ q := fun e => (List.nodup_cons.mp hnd).1 (e ▸ hq)
        simp [hpq]
        exact hz q (by simp [hq])
      have := ih (ba.set p true) ba' h (List.nodup_cons.mp hnd).2 hrest
      rw [this, count_true_set ba p hbaP]
      simp only [List.length_cons]
      omega
    · exact absurd h (by simp)

theorem foldl_min_le (xs : List Nat) : ∀ (x : Nat), ∀ y ∈ x :: xs, xs.foldl min x ≤ y := by
  induction xs with
  | nil =>
    intro x y hy
    simp only [List.mem_singleton] at hy
    simp [hy]
  | cons z zs ih =>
    intro x y hy
    rcases List.mem_cons.mp hy with rfl | hy'
    · calc zs.foldl min (min y z) ≤ min y z := ih (min y z) _ (by simp)
        _ ≤ y := min_le_left _ _
    · rcases List.mem_cons.mp hy' with rfl | hy''
      · calc zs.foldl min (min x y) ≤ min x y := ih (min x y) _ (by simp)
          _ ≤ y := min_le_right _ _
      · exact ih (min x z) y (by simp [hy''])

theorem foldl_min_mem (xs : List Nat) : ∀ (x : Nat), xs.foldl min x ∈ x :: xs := by
  induction xs with
  | nil => intro x; simp
  | cons z zs ih =>
    intro x
    have h := ih (min x z)
    rcases List.mem_cons.mp h with he | hm
    · rcases min_choice x z with hc | hc
      · rw [List.foldl_cons, he, hc]; simp
      · rw [List.foldl_cons, he, hc]; simp
    · simp [List.foldl_cons]
      right
      right
      exact hm

theorem gen_init_store (recordStore : List (String × Finset String))
    (idxR : List (Finset String)) (L b : Nat) (store : List RecordOut)
    (h : gen_init_int_signature recordStore idxR L = some (b, store)) :
    store = recordStore.map (fun r => (r.1, r.2, intSignature r.2 idxR L)) := by
  cases recordStore with
  | nil => simp [gen_init_int_signature] at h
  | cons r rs =>
    simp only [gen_init_int_signature, List.map_cons, Option.some.injEq, Prod.mk.injEq] at h
    exact h.2.symm

theorem gen_init_min (recordStore : List (String × Finset String))
    (idxR : List (Finset String)) (L b : Nat) (store : List RecordOut)
    (h : gen_init_int_signature recordStore idxR L = some (b, store)) :
    (∀ r ∈ store, b ≤ sigLen r) ∧ ∃ r ∈ store, sigLen r = b := by
  cases recordStore with
  | nil => simp [gen_init_int_signature] at h
  | cons r rs =>
    simp only [gen_init_int_signature, List.map_cons, Option.some.injEq, Prod.mk.injEq] at h
    obtain ⟨hb, hstore⟩ := h
    set f := fun r : String × Finset String => (r.1, r.2, intSignature r.2 idxR L) with hf
    have hmap : store.map sigLen = sigLen (f r) :: (rs.map f).map sigLen := by
      simp [← hstore]
    constructor
    · intro rr hrr
      have : sigLen rr ∈ store.map sigLen := List.mem_map_of_mem _ hrr
      rw [hmap] at this
      exact hb ▸ foldl_min_le _ _ _ this
    · have hmem := foldl_min_mem ((rs.map f).map sigLen) (sigLen (f r))
      rw [← hmap, hb] at hmem
      obtain ⟨rr, hrr, he⟩ := List.mem_map.mp hmem
      exact ⟨rr, hrr, he⟩

theorem simStoreAux_fst_lb (recQ : Finset String) :
    ∀ (l : List (Finset String)) (i : Nat), ∀ p ∈ simStoreAux recQ l i, i ≤ p.1 := by
  intro l
  induction l with
  | nil => intro i p hp; simp [simStoreAux] at hp
  | cons s rest ih =>
    intro i p hp
    simp only [simStoreAux, List.mem_append] at hp
    rcases hp with hp | hp
    · split at hp
      · simp only [List.mem_singleton] at hp
        simp [hp]
      · simp at hp
    · exact Nat.le_of_succ_le (ih (i + 1) p hp)

theorem simStoreAux_fst_pairwise (recQ : Finset String) :
    ∀ (l : List (Finset String)) (i : Nat),
      (simStoreAux recQ l i).Pairwise (fun a b => a.1 < b.1) := by
  intro l
  induction l with
  | nil => intro i; simp [simStoreAux]
  | cons s rest ih =>
    intro i
    simp only [simStoreAux]
    refine List.pairwise_append.mpr ⟨?_, ih (i + 1), ?_⟩
    · split
      · simp
      · simp
    · intro a ha b hb
      split at ha
      · simp only [List.mem_singleton] at ha
        subst ha
        have hlb := simStoreAux_fst_lb recQ rest (i + 1) b hb
        show i < b.1
        omega
      · simp at ha

theorem simStore_fst_nodup (recQ : Finset String) (idxR : List (Finset String)) :
    ((simStore recQ idxR).map Prod.fst).Nodup := by
  have hp : (simStore recQ idxR).Pairwise (fun a b => a.1 < b.1) :=
    simStoreAux_fst_pairwise recQ idxR 0
  have hlt : ((simStore recQ idxR).map Prod.fst).Pairwise (fun a b => a < b) :=
    List.pairwise_map.mpr hp
  exact hlt.imp (fun h => Nat.ne_of_lt h)

theorem intSignature_fst_nodup (recQ : Finset String) (idxR : List (Finset String))
    (L : Nat) : ((intSignature recQ idxR L).map Prod.fst).Nodup := by
  have hperm : (sortDescBySim (simStore recQ idxR)).Perm (simStore recQ idxR) :=
    List.perm_insertionSort _ _
  have hnd : ((sortDescBySim (simStore recQ idxR)).map Prod.fst).Nodup :=
    ((hperm.map Prod.fst).nodup_iff).mpr (simStore_fst_nodup recQ idxR)
  have hsub : ((intSignature recQ idxR L).map Prod.fst).Sublist
      ((sortDescBySim (simStore recQ idxR)).map Prod.fst) :=
    (List.take_sublist _ _).map Prod.fst
  exact hsub.nodup hnd

/-! ## Claims about the signature encoder -/

/-- C1: for every record (under the precondition, checked by the code's
`assert`, that every intermediate signature has length at least `n1Bits`), the
final signature produced by `extract_signatures` is a bit-array whose length is
the reference-set pool size, with exactly `n1Bits` ones, located exactly at the
first `n1Bits` reference-set indices of the record's descending similarity
ranking, all other positions 0. -/
theorem extract_signatures_bit_count
    (recordStore : List (String × Finset String)) (indexedR : List (Finset String))
    (L n1 b : Nat) (store : List RecordOut) (out : List (String × List Bool))
    (hgen : gen_init_int_signature recordStore indexedR L = some (b, store))
    (hext : extract_signatures indexedR store n1 = some out) :
    ∀ (i : Nat) (r : RecordOut), store[i]? = some r →
      ∃ p : String × List Bool, out[i]? = some p ∧ p.1 = r.1 ∧
        p.2.length = indexedR.length ∧ p.2.count true = n1 ∧
        ∀ j : Nat, (p.2[j]? = some true ↔ j ∈ (r.2.2.take n1).map Prod.fst) := by
  intro i r hr
  obtain ⟨_, hget⟩ := mapOpt_spec _ store out hext
  obtain ⟨p, hp, hfp⟩ := hget i r hr
  refine ⟨p, hp, ?_⟩
  by_cases hle : n1 ≤ sigLen r
  swap
  · rw [if_neg hle] at hfp; simp at hfp
  rw [if_pos hle] at hfp
  cases hba : generate_bit_array_signature indexedR.length ((r.2.2.take n1).map Prod.fst) with
  | none => rw [hba] at hfp; simp at hfp
  | some ba =>
    rw [hba] at hfp
    simp only [Option.map_some', Option.some.injEq] at hfp
    subst hfp
    have hlenr : (List.replicate indexedR.length false).length = indexedR.length := by simp
    have hlen : ba.length = indexedR.length := (setBits_length _ _ _ _ hba).trans hlenr
    have hpslen : ((r.2.2.take n1).map Prod.fst).length = n1 := by
      simp only [List.length_map, List.length_take]
      exact min_eq_left hle
    have hnd : ((r.2.2.take n1).map Prod.fst).Nodup := by
      have hstore := gen_init_store recordStore indexedR L b store hgen
      rw [hstore] at hr
      rw [List.getElem?_map] at hr
      cases hrec : recordStore[i]? with
      | none => rw [hrec] at hr; simp at hr
      | some rec0 =>
        rw [hrec] at hr
        simp only [Option.map_some', Option.some.injEq] at hr
        have hsig : r.2.2 = intSignature rec0.2 indexedR L := by rw [← hr]
        rw [hsig]
        have h1 : ((intSignature rec0.2 indexedR L).take n1).map Prod.fst
            |>.Sublist ((intSignature rec0.2 indexedR L).map Prod.fst) :=
          (List.take_sublist _ _).map Prod.fst
        exact h1.nodup (intSignature_fst_nodup rec0.2 indexedR L)
    have hzero : ∀ q ∈ (r.2.2.take n1).map Prod.fst,
        (List.replicate indexedR.length false)[q]? = some false := by
      intro q hq
      have hqlt := setBits_mem_lt _ _ _ _ hba q hq
      simp [List.getElem?_replicate, hqlt]
    refine ⟨rfl, hlen, ?_, ?_⟩
    · have := setBits_count _ _ _ _ hba hnd hzero
      rw [this, hpslen]
      simp [List.count_replicate]
    · intro j
      have := setBits_getElem _ _ _ _ hba hlenr j
      rw [this]
      constructor
      · rintro (hj | hj)
        · exact hj
        · rw [List.getElem?_replicate] at hj
          split at hj <;> simp at hj
      · exact Or.inl

/-- C1 witness: a concrete two-record store encoded with one 1-bit. -/
theorem extract_signatures_bit_count_witness :
    ([true, false] : List Bool).count true = 1 ∧ ([true, false] : List Bool).length = 2 := by
  have h := extract_signatures_bit_count [("r1", {"ab"}), ("r2", {"ab", "cd"})]
      [{"ab"}, {"cd"}] 2 1 1
      [("r1", {"ab"}, [(0, 1)]), ("r2", {"ab", "cd"}, [(0, 1/2), (1, 1/2)])]
      [("r1", [true, false]), ("r2", [true, false])] (by with_unfolding_all decide) (by with_unfolding_all decide)
  obtain ⟨p, hp, _, hlen, hcount, _⟩ := h 0 ("r1", {"ab"}, [(0, 1)]) (by with_unfolding_all decide)
  simp only [List.getElem?_cons_zero, Option.some.injEq] at hp
  subst hp
  exact ⟨hcount, hlen.trans rfl⟩

/-- C4: `gen_init_int_signature` returns the per-dataset minimum intermediate
signature length, and `num_1_bits = min b1 b2` is the minimum intermediate
signature length over all records of both datasets together. -/
theorem num_one_bits_global_min
    (s1 s2 : List (String × Finset String)) (idxR : List (Finset String)) (L : Nat)
    (b1 b2 : Nat) (t1 t2 : List RecordOut)
    (h1 : gen_init_int_signature s1 idxR L = some (b1, t1))
    (h2 : gen_init_int_signature s2 idxR L = some (b2, t2)) :
    (∀ r ∈ t1 ++ t2, min b1 b2 ≤ sigLen r) ∧ ∃ r ∈ t1 ++ t2, sigLen r = min b1 b2 := by
  obtain ⟨hle1, hmem1⟩ := gen_init_min s1 idxR L b1 t1 h1
  obtain ⟨hle2, hmem2⟩ := gen_init_min s2 idxR L b2 t2 h2
  constructor
  · intro r hr
    rcases List.mem_append.mp hr with hr | hr
    · exact le_trans (min_le_left _ _) (hle1 r hr)
    · exact le_trans (min_le_right _ _) (hle2 r hr)
  · rcases le_total b1 b2 with hb | hb
    · obtain ⟨r, hr, he⟩ := hmem1
      exact ⟨r, List.mem_append_left _ hr, by rw [he, min_eq_left hb]⟩
    · obtain ⟨r, hr, he⟩ := hmem2
      exact ⟨r, List.mem_append_right _ hr, by rw [he, min_eq_right hb]⟩

/-- C4 witness: the spec's scenario — one dataset whose record has 5
nonzero-similarity reference sets and one whose record has 3 gives
`num_1_bits = min 5 3 = 3`. -/
theorem num_one_bits_global_min_witness :
    (∀ r ∈ ([("d1", ({"a", "b", "c", "d", "e"} : Finset String),
        [((0 : Nat), (1 : ℚ)/5), (1, 1/5), (2, 1/5), (3, 1/5), (4, 1/5)])] ++
        [("d2", ({"a", "b", "c"} : Finset String),
        [((0 : Nat), (1 : ℚ)/3), (1, 1/3), (2, 1/3)])] : List RecordOut),
      min 5 3 ≤ sigLen r) ∧
    ∃ r ∈ ([("d1", ({"a", "b", "c", "d", "e"} : Finset String),
        [((0 : Nat), (1 : ℚ)/5), (1, 1/5), (2, 1/5), (3, 1/5), (4, 1/5)])] ++
        [("d2", ({"a", "b", "c"} : Finset String),
        [((0 : Nat), (1 : ℚ)/3), (1, 1/3), (2, 1/3)])] : List RecordOut),
      sigLen r = min 5 3 :=
  num_one_bits_global_min [("d1", {"a", "b", "c", "d", "e"})] [("d2", {"a", "b", "c"})]
    [{"a"}, {"b"}, {"c"}, {"d"}, {"e"}] 10 5 3 _ _ (by with_unfolding_all decide)
    (by with_unfolding_all decide)

/-- C9 counterexample: a record whose q-gram set intersects no reference set.
The claim says the `num_1_bits` computation fails and the record is excluded
from final encoding; instead `gen_init_int_signature` succeeds with budget 0
and `extract_signatures` keeps the record, emitting the all-zero bit-array. -/
theorem zero_similarity_record_not_excluded :
    gen_init_int_signature [("a", {"xx"})] [{"yy"}] 2 = some (0, [("a", {"xx"}, [])]) ∧
    extract_signatures [{"yy"}] [("a", {"xx"}, [])] 0 = some [("a", [false])] := by
  exact ⟨by with_unfolding_all decide, by with_unfolding_all decide⟩

theorem simStoreAux_disjoint (recQ : Finset String) :
    ∀ (l : List (Finset String)) (i : Nat), (∀ s ∈ l, s ∩ recQ = ∅) →
      simStoreAux recQ l i = [] := by
  intro l
  induction l with
  | nil => intro i _; rfl
  | cons s rest ih =>
    intro i hd
    simp only [simStoreAux]
    rw [if_neg, ih (i + 1) (fun x hx => hd x (by simp [hx]))]
    · simp
    · rw [hd s (by simp)]
      simp

/-- C9 amended: a record with zero nonzero-similarity reference sets makes the
uniform budget compute to `b = 0` (no failure), and the record is carried into
final encoding, where every record of the store receives the all-zero
bit-array of pool length. -/
theorem zero_similarity_gives_zero_budget
    (recordStore : List (String × Finset String)) (idxR : List (Finset String))
    (L b : Nat) (store : List RecordOut) (rid : String) (q : Finset String)
    (hmem : (rid, q) ∈ recordStore)
    (hdisj : ∀ s ∈ idxR, s ∩ q = ∅)
    (hgen : gen_init_int_signature recordStore idxR L = some (b, store)) :
    b = 0 ∧ extract_signatures idxR store b =
      some (store.map (fun r => (r.1, List.replicate idxR.length false))) := by
  have hstore := gen_init_store recordStore idxR L b store hgen
  have hsig0 : intSignature q idxR L = [] := by
    unfold intSignature simStore
    rw [simStoreAux_disjoint q idxR 0 hdisj]
    simp [sortDescBySim]
  have hrec : ((rid, q, intSignature q idxR L) : RecordOut) ∈ store := by
    rw [hstore]
    exact List.mem_map_of_mem _ hmem
  have hb : b = 0 := by
    have := (gen_init_min recordStore idxR L b store hgen).1 _ hrec
    simp only [sigLen, hsig0, List.length_nil] at this
    omega
  subst hb
  refine ⟨rfl, ?_⟩
  apply mapOpt_eq_map
  intro r _
  rw [if_pos (Nat.zero_le _)]
  simp only [List.take_zero, List.map_nil]
  rfl

/-- C9 amended witness: the concrete single-record store. -/
theorem zero_similarity_gives_zero_budget_witness :
    extract_signatures [{"yy"}] [("a", {"xx"}, [])] 0 = some [("a", [false])] := by
  have h := zero_similarity_gives_zero_budget [("a", {"xx"})] [{"yy"}] 2 0
      [("a", {"xx"}, [])] "a" {"xx"} (by simp) (by decide)
      (by with_unfolding_all decide)
  simpa using h.2

/-! ## Helper lemmas about the rank-swap optimizer -/

theorem qnLe_refl (a : ℚ × Nat) : qnLe a a := Or.inr ⟨rfl, le_refl _⟩

theorem qnLt_qnLe {a b : ℚ × Nat} (h : qnLt a b) : qnLe a b := by
  rcases h with h | ⟨h1, h2⟩
  · exact Or.inl h
  · exact Or.inr ⟨h1, le_of_lt h2⟩

theorem qnLe_of_not_qnLt {a b : ℚ × Nat} (h : ¬ qnLt a b) : qnLe b a := by
  unfold qnLt at h
  rcases lt_trichotomy a.1 b.1 with h1 | h1 | h1
  · exact absurd (Or.inl h1) h
  · rcases le_or_lt a.2 b.2 with h2 | h2
    · rcases lt_or_eq_of_le h2 with h2' | h2'
      · exact absurd (Or.inr ⟨h1, h2'⟩) h
      · exact Or.inr ⟨h1.symm, le_of_eq h2'.symm⟩
    · exact Or.inr ⟨h1.symm, le_of_lt h2⟩
  · exact Or.inl h1

theorem qnLe_trans {a b c : ℚ × Nat} (h1 : qnLe a b) (h2 : qnLe b c) : qnLe a c := by
  rcases h1 with h1 | ⟨e1, l1⟩ <;> rcases h2 with h2 | ⟨e2, l2⟩
  · exact Or.inl (h1.trans h2)
  · exact Or.inl (e2 ▸ h1)
  · exact Or.inl (e1 ▸ h2)
  · exact Or.inr ⟨e1.trans e2, l1.trans l2⟩

theorem qnLe_score {a b : ℚ × Nat} (h : qnLe a b) : a.1 ≤ b.1 := by
  rcases h with h | ⟨h, _⟩
  · exact le_of_lt h
  · exact le_of_eq h

theorem foldl_minStep_spec :
    ∀ (pool : Pool) (b : Nat × WeighedSet),
      ∃ res, pool.foldl minStep (some b) = some res ∧ (res = b ∨ res ∈ pool) ∧
        qnLe (entryKey res) (entryKey b) ∧ ∀ x ∈ pool, qnLe (entryKey res) (entryKey x) := by
  intro pool
  induction pool with
  | nil => intro b; exact ⟨b, rfl, Or.inl rfl, qnLe_refl _, by simp⟩
  | cons x rest ih =>
    intro b
    rw [List.foldl_cons]
    by_cases hx : qnLt (entryKey x) (entryKey b)
    · have hms : minStep (some b) x = some x := by simp [minStep, hx]
      rw [hms]
      obtain ⟨res, hfold, hmem, hle, hall⟩ := ih x
      refine ⟨res, hfold, ?_, qnLe_trans hle (qnLt_qnLe hx), ?_⟩
      · rcases hmem with rfl | hm
        · exact Or.inr (by simp)
        · exact Or.inr (by simp [hm])
      · intro y hy
        rcases List.mem_cons.mp hy with rfl | hy'
        · exact hle
        · exact hall y hy'
    · have hms : minStep (some b) x = some b := by simp [minStep, hx]
      rw [hms]
      obtain ⟨res, hfold, hmem, hle, hall⟩ := ih b
      refine ⟨res, hfold, ?_, hle, ?_⟩
      · rcases hmem with rfl | hm
        · exact Or.inl rfl
        · exact Or.inr (by simp [hm])
      · intro y hy
        rcases List.mem_cons.mp hy with rfl | hy'
        · exact qnLe_trans hle (qnLe_of_not_qnLt hx)
        · exact hall y hy'

theorem foldl_maxStep_spec :
    ∀ (pool : Pool) (b : Nat × WeighedSet),
      ∃ res, pool.foldl maxStep (some b) = some res ∧ (res = b ∨ res ∈ pool) ∧
        qnLe (entryKey b) (entryKey res) ∧ ∀ x ∈ pool, qnLe (entryKey x) (entryKey res) := by
  intro pool
  induction pool with
  | nil => intro b; exact ⟨b, rfl, Or.inl rfl, qnLe_refl _, by simp⟩
  | cons x rest ih =>
    intro b
    rw [List.foldl_cons]
    by_cases hx : qnLt (entryKey b) (entryKey x)
    · have hms : maxStep (some b) x = some x := by simp [maxStep, hx]
      rw [hms]
      obtain ⟨res, hfold, hmem, hle, hall⟩ := ih x
      refine ⟨res, hfold, ?_, qnLe_trans (qnLt_qnLe hx) hle, ?_⟩
      · rcases hmem with rfl | hm
        · exact Or.inr (by simp)
        · exact Or.inr (by simp [hm])
      · intro y hy
        rcases List.mem_cons.mp hy with rfl | hy'
        · exact hle
        · exact hall y hy'
    · have hms : maxStep (some b) x = some b := by simp [maxStep, hx]
      rw [hms]
      obtain ⟨res, hfold, hmem, hle, hall⟩ := ih b
      refine ⟨res, hfold, ?_, hle, ?_⟩
      · rcases hmem with rfl | hm
        · exact Or.inl rfl
        · exact Or.inr (by simp [hm])
      · intro y hy
        rcases List.mem_cons.mp hy with rfl | hy'
        · exact qnLe_trans (qnLe_of_not_qnLt hx) hle
        · exact hall y hy'

theorem pyMinBy_spec (pool : Pool) (mn : Nat × WeighedSet) (h : pyMinBy pool = some mn) :
    mn ∈ pool ∧ ∀ x ∈ pool, qnLe (entryKey mn) (entryKey x) := by
  cases pool with
  | nil => simp [pyMinBy] at h
  | cons p rest =>
    rw [pyMinBy, List.foldl_cons] at h
    obtain ⟨res, hfold, hmem, hle, hall⟩ := foldl_minStep_spec rest p
    rw [show minStep none p = some p from rfl, hfold] at h
    injection h with h
    subst h
    constructor
    · rcases hmem with rfl | hm
      · simp
      · simp [hm]
    · intro x hx
      rcases List.mem_cons.mp hx with rfl | hx'
      · exact hle
      · exact hall x hx'

theorem pyMaxBy_spec (pool : Pool) (mx : Nat × WeighedSet) (h : pyMaxBy pool = some mx) :
    mx ∈ pool ∧ ∀ x ∈ pool, qnLe (entryKey x) (entryKey mx) := by
  cases pool with
  | nil => simp [pyMaxBy] at h
  | cons p rest =>
    rw [pyMaxBy, List.foldl_cons] at h
    obtain ⟨res, hfold, hmem, hle, hall⟩ := foldl_maxStep_spec rest p
    rw [show maxStep none p = some p from rfl, hfold] at h
    injection h with h
    subst h
    constructor
    · rcases hmem with rfl | hm
      · simp
      · simp [hm]
    · intro x hx
      rcases List.mem_cons.mp hx with rfl | hx'
      · exact hle
      · exact hall x hx'

theorem pyMinBy_of_ne_nil (pool : Pool) (h : pool ≠ []) : ∃ mn, pyMinBy pool = some mn := by
  cases pool with
  | nil => exact absurd rfl h
  | cons p rest =>
    obtain ⟨res, hfold, _⟩ := foldl_minStep_spec rest p
    exact ⟨res, by rw [pyMinBy, List.foldl_cons]; exact hfold⟩

theorem pyMaxBy_of_ne_nil (pool : Pool) (h : pool ≠ []) : ∃ mx, pyMaxBy pool = some mx := by
  cases pool with
  | nil => exact absurd rfl h
  | cons p rest =>
    obtain ⟨res, hfold, _⟩ := foldl_maxStep_spec rest p
    exact ⟨res, by rw [pyMaxBy, List.foldl_cons]; exact hfold⟩

theorem mem_sortedAsc {p : String × ℚ} {l : List (String × ℚ)} :
    p ∈ sortedAsc l ↔ p ∈ l := by
  unfold sortedAsc
  exact (List.perm_insertionSort pairLe l).mem_iff

theorem mem_sortedDesc {p : String × ℚ} {l : List (String × ℚ)} :
    p ∈ sortedDesc l ↔ p ∈ l := by
  unfold sortedDesc
  rw [List.mem_reverse]
  exact mem_sortedAsc

theorem map_replace_of_not_mem {α : Type} [DecidableEq α] (l : List α) (a b : α)
    (ha : a ∉ l) : l.map (fun e => if e = a then b else e) = l := by
  induction l with
  | nil => rfl
  | cons x t ih =>
    simp only [List.mem_cons, not_or] at ha
    have hxa : x ≠ a := fun e => ha.1 e.symm
    simp only [List.map_cons, if_neg hxa, ih ha.2]

theorem replace_perm {α : Type} [DecidableEq α] (l : List α) (a b : α) (ha : a ∈ l)
    (hnd : l.Nodup) : (l.map (fun e => if e = a then b else e)).Perm (b :: l.erase a) := by
  induction l with
  | nil => simp at ha
  | cons x t ih =>
    by_cases hax : x = a
    · subst hax
      have hnx : x ∉ t := (List.nodup_cons.mp hnd).1
      simp only [List.map_cons, List.erase_cons_head, if_true, eq_self_iff_true]
      rw [map_replace_of_not_mem t x b hnx]
    · have ha' : a ∈ t := by
        rcases List.mem_cons.mp ha with h | h
        · exact absurd h.symm hax
        · exact h
      have hperm := ih ha' (List.nodup_cons.mp hnd).2
      have herase : (x :: t).erase a = x :: t.erase a := by
        rw [List.erase_cons_tail]
        simp [hax]
      simp only [List.map_cons, if_neg hax, herase]
      exact (hperm.cons x).trans (List.Perm.swap b x (t.erase a))

theorem mod_list_spec (pairs : List (String × ℚ)) (me xe : String × ℚ)
    (hnd : pairs.Nodup) (hme : me ∈ pairs) (hxe : xe ∉ pairs) :
    pySetRepr (pairs.map (fun e => if e = me then xe else e)) =
      pairs.map (fun e => if e = me then xe else e) ∧
    (pairs.map (fun e => if e = me then xe else e)).Perm (xe :: pairs.erase me) := by
  have hperm := replace_perm pairs me xe hme hnd
  have hnd2 : (xe :: pairs.erase me).Nodup := by
    rw [List.nodup_cons]
    exact ⟨fun hc => hxe (List.mem_of_mem_erase hc), hnd.erase me⟩
  have hndm : (pairs.map (fun e => if e = me then xe else e)).Nodup :=
    hperm.nodup_iff.mpr hnd2
  exact ⟨List.Nodup.dedup hndm, hperm⟩

theorem mod_score (pairs : List (String × ℚ)) (me xe : String × ℚ) (n : Nat)
    (hnd : pairs.Nodup) (hme : me ∈ pairs) (hxe : xe ∉ pairs)
    (hlen : pairs.length = n) (hn : 0 < n) :
    (pySetRepr (pairs.map (fun e => if e = me then xe else e))).length = n ∧
    setScore (pySetRepr (pairs.map (fun e => if e = me then xe else e))) =
      setScore pairs + (xe.2 - me.2) / (n : ℚ) := by
  obtain ⟨hdedup, hperm⟩ := mod_list_spec pairs me xe hnd hme hxe
  rw [hdedup]
  have hlenBase : (pairs.map (fun e => if e = me then xe else e)).length = n := by
    rw [hperm.length_eq, List.length_cons, List.length_erase_of_mem hme, hlen]
    have := List.length_pos_of_mem hme
    omega
  refine ⟨hlenBase, ?_⟩
  have hsum1 : ((pairs.map (fun e => if e = me then xe else e)).map Prod.snd).sum =
      xe.2 + ((pairs.erase me).map Prod.snd).sum := by
    rw [(hperm.map Prod.snd).sum_eq]
    simp
  have hsum2 : (pairs.map Prod.snd).sum = me.2 + ((pairs.erase me).map Prod.snd).sum := by
    rw [((List.perm_cons_erase hme).map Prod.snd).sum_eq]
    simp
  unfold setScore
  rw [hsum1, hlenBase, hlen]
  have hnq : (n : ℚ) ≠ 0 := by
    exact_mod_cast Nat.pos_iff_ne_zero.mp hn
  field_simp
  linarith [hsum2]

theorem tryPair_spec (minPairs maxPairs : List (String × ℚ)) (oldR : ℚ)
    (minElt maxElt : String × ℚ) (f : SwapFound)
    (h : tryPair minPairs maxPairs oldR minElt maxElt = some f) :
    f.minElt = minElt ∧ f.maxElt = maxElt ∧
    f.modMin = pySetRepr (minPairs.map (fun e => if e = minElt then maxElt else e)) ∧
    f.modMax = pySetRepr (maxPairs.map (fun e => if e = maxElt then minElt else e)) ∧
    f.wMin = setScore f.modMin ∧ f.wMax = setScore f.modMax ∧
    |f.wMax - f.wMin| < oldR := by
  simp only [tryPair] at h
  split at h
  case isTrue hr =>
    simp only [Option.some.injEq] at h
    subst h
    exact ⟨rfl, rfl, rfl, rfl, rfl, rfl, hr⟩
  case isFalse => simp at h

theorem scanPairs_spec (sMin sMax minPairs maxPairs : List (String × ℚ)) (oldR : ℚ)
    (f : SwapFound) (h : scanPairs sMin sMax minPairs maxPairs oldR = some f) :
    f.minElt ∈ sMin ∧ f.minElt ∉ sMax ∧ f.maxElt ∈ sMax ∧ f.maxElt ∉ sMin ∧
    f.minElt.2 < f.maxElt.2 ∧
    f.modMin = pySetRepr (minPairs.map (fun e => if e = f.minElt then f.maxElt else e)) ∧
    f.modMax = pySetRepr (maxPairs.map (fun e => if e = f.maxElt then f.minElt else e)) ∧
    f.wMin = setScore f.modMin ∧ f.wMax = setScore f.modMax ∧
    |f.wMax - f.wMin| < oldR := by
  unfold scanPairs at h
  obtain ⟨me, hmeMem, h1⟩ := List.exists_of_findSome?_eq_some h
  by_cases hmemMax : me ∈ sMax
  · rw [if_pos hmemMax] at h1
    exact absurd h1 (by simp)
  · rw [if_neg hmemMax] at h1
    obtain ⟨xe, hxeMem, h2⟩ := List.exists_of_findSome?_eq_some h1
    by_cases hcond : xe ∉ sMin ∧ me.2 < xe.2
    · rw [if_pos hcond] at h2
      obtain ⟨hfme, hfxe, hmodMin, hmodMax, hwMin, hwMax, hrange⟩ :=
        tryPair_spec minPairs maxPairs oldR me xe f h2
      rw [← hfme] at hmeMem hmemMax hmodMin
      rw [← hfxe] at hxeMem hcond hmodMin hmodMax
      rw [← hfme] at hmodMax hcond
      exact ⟨hmeMem, hmemMax, hxeMem, hcond.1, hcond.2, hmodMin, hmodMax, hwMin, hwMax, hrange⟩
    · rw [if_neg hcond] at h2
      simp at h2

theorem swapStep_swapped_inv (pool pool' : Pool) (oldR newR : ℚ)
    (h : swapStep pool = SwapStepResult.swapped pool' oldR newR) :
    ∃ mn mx f, pyMinBy pool = some mn ∧ pyMaxBy pool = some mx ∧
      scanPairs (sortedAsc mn.2.pairs) (sortedDesc mx.2.pairs) mn.2.pairs mx.2.pairs
        (mx.2.weighted_score - mn.2.weighted_score) = some f ∧
      f.modMin.length = mn.2.pairs.length ∧
      pool' = updatePool (updatePool pool mn.1 f.modMin f.wMin) mx.1 f.modMax f.wMax ∧
      oldR = mx.2.weighted_score - mn.2.weighted_score ∧ newR = |f.wMax - f.wMin| := by
  simp only [swapStep] at h
  split at h
  next mn mx heqmn heqmx =>
    split at h
    next f heqscan =>
      split at h
      next hassert =>
        simp only [SwapStepResult.swapped.injEq] at h
        exact ⟨mn, mx, f, heqmn, heqmx, heqscan, hassert, h.1.symm, h.2.1.symm, h.2.2.symm⟩
      next => simp at h
    next heqscan =>
      split at h <;> simp at h
  next => simp at h

theorem updatePool_score_cases (pool : Pool) (key : Nat) (newPairs : List (String × ℚ))
    (w : ℚ) (e : Nat × WeighedSet) (he : e ∈ updatePool pool key newPairs w) :
    e ∈ pool ∨ (e.2.pairs = newPairs ∧
      e.2.set_only = (newPairs.map Prod.fst).toFinset ∧ e.2.weighted_score = w) := by
  unfold updatePool at he
  obtain ⟨e0, he0, heq⟩ := List.mem_map.mp he
  by_cases hk : e0.1 = key
  · rw [if_pos hk] at heq
    right
    rw [← heq]
    exact ⟨rfl, rfl, rfl⟩
  · rw [if_neg hk] at heq
    left
    exact heq ▸ he0

theorem updatePool_ne_nil (pool : Pool) (key : Nat) (newPairs : List (String × ℚ)) (w : ℚ)
    (h : pool ≠ []) : updatePool pool key newPairs w ≠ [] := by
  unfold updatePool
  intro hc
  exact h (List.map_eq_nil_iff.mp hc)

/-! ## Claims about the rank-swap optimizer -/

/-- C3: a swap is accepted only when the recomputed two-set range
`|new_max_weight - new_min_weight|` is strictly smaller than the pool spread
`old_max_weight - old_min_weight`, and consequently the pool-wide weight spread
is non-increasing across every accepted swap (given the data-model invariant
that all reference sets share the same positive length `n` with consistent
mean scores). -/
theorem swap_spread_monotone (n : Nat) (pool pool' : Pool) (oldR newR : ℚ)
    (hWF : PoolWF n pool)
    (hstep : swapStep pool = SwapStepResult.swapped pool' oldR newR) :
    newR < poolSpread pool ∧ poolSpread pool' ≤ poolSpread pool := by
  obtain ⟨mn, mx, f, hmn, hmx, hscan, hassert, hpool', hold, hnew⟩ :=
    swapStep_swapped_inv pool pool' oldR newR hstep
  obtain ⟨hmnMem, hmnLe⟩ := pyMinBy_spec pool mn hmn
  obtain ⟨hmxMem, hmxGe⟩ := pyMaxBy_spec pool mx hmx
  obtain ⟨hinMin, hninMax, hinMax, hninMin, hlt, hmodMin, hmodMax, hwMin, hwMax, hrange⟩ :=
    scanPairs_spec _ _ _ _ _ _ hscan
  have hmeMem : f.minElt ∈ mn.2.pairs := mem_sortedAsc.mp hinMin
  have hxeMem : f.maxElt ∈ mx.2.pairs := mem_sortedDesc.mp hinMax
  have hmeNotMax : f.minElt ∉ mx.2.pairs := fun hc => hninMax (mem_sortedDesc.mpr hc)
  have hxeNotMin : f.maxElt ∉ mn.2.pairs := fun hc => hninMin (mem_sortedAsc.mpr hc)
  obtain ⟨hposn, hWFall⟩ := hWF
  obtain ⟨hndMn, hlenMn, hscoreMn⟩ := hWFall mn hmnMem
  obtain ⟨hndMx, hlenMx, hscoreMx⟩ := hWFall mx hmxMem
  obtain ⟨hlenModMin, hscoreModMin⟩ :=
    mod_score mn.2.pairs f.minElt f.maxElt n hndMn hmeMem hxeNotMin hlenMn hposn
  obtain ⟨hlenModMax, hscoreModMax⟩ :=
    mod_score mx.2.pairs f.maxElt f.minElt n hndMx hxeMem hmeNotMax hlenMx hposn
  have hwMin' : f.wMin =
      mn.2.weighted_score + (f.maxElt.2 - f.minElt.2) / (n : ℚ) := by
    rw [hwMin, hmodMin, hscoreModMin, ← hscoreMn]
  have hwMax' : f.wMax =
      mx.2.weighted_score - (f.maxElt.2 - f.minElt.2) / (n : ℚ) := by
    rw [hwMax, hmodMax, hscoreModMax, ← hscoreMx]
    ring
  have hapos : 0 < (f.maxElt.2 - f.minElt.2) / (n : ℚ) := by
    apply div_pos
    · linarith [hlt]
    · exact_mod_cast hposn
  have hspread : poolSpread pool = mx.2.weighted_score - mn.2.weighted_score := by
    unfold poolSpread
    rw [hmn, hmx]
  have haLt : (f.maxElt.2 - f.minElt.2) / (n : ℚ) <
      mx.2.weighted_score - mn.2.weighted_score := by
    rw [hwMax', hwMin'] at hrange
    rw [abs_lt] at hrange
    obtain ⟨h1, h2⟩ := hrange
    linarith
  refine ⟨by rw [hnew, hspread]; exact hrange, ?_⟩
  have hboundHigh : ∀ e ∈ pool', (e : Nat × WeighedSet).2.weighted_score ≤
      mx.2.weighted_score := by
    intro e he
    rw [hpool'] at he
    rcases updatePool_score_cases _ _ _ _ _ he with he1 | hsc
    · rcases updatePool_score_cases _ _ _ _ _ he1 with he0 | hsc
      · exact qnLe_score (hmxGe e he0)
      · rw [hsc.2.2, hwMin']; linarith
    · rw [hsc.2.2, hwMax']; linarith
  have hboundLow : ∀ e ∈ pool', mn.2.weighted_score ≤
      (e : Nat × WeighedSet).2.weighted_score := by
    intro e he
    rw [hpool'] at he
    rcases updatePool_score_cases _ _ _ _ _ he with he1 | hsc
    · rcases updatePool_score_cases _ _ _ _ _ he1 with he0 | hsc
      · exact qnLe_score (hmnLe e he0)
      · rw [hsc.2.2, hwMin']; linarith
    · rw [hsc.2.2, hwMax']; linarith
  have hne : pool' ≠ [] := by
    rw [hpool']
    exact updatePool_ne_nil _ _ _ _
      (updatePool_ne_nil _ _ _ _ (List.ne_nil_of_mem hmnMem))
  obtain ⟨mn', hmn'⟩ := pyMinBy_of_ne_nil pool' hne
  obtain ⟨mx', hmx'⟩ := pyMaxBy_of_ne_nil pool' hne
  have hspread' : poolSpread pool' =
      mx'.2.weighted_score - mn'.2.weighted_score := by
    unfold poolSpread
    rw [hmn', hmx']
  rw [hspread', hspread]
  have h1 := hboundHigh mx' (pyMaxBy_spec pool' mx' hmx').1
  have h2 := hboundLow mn' (pyMinBy_spec pool' mn' hmn').1
  linarith

/-- C3 witness: the two-set pool with scores 1 and 7; the accepted swap has
two-set range 2 < 6 and shrinks the pool spread from 6 to 2. -/
theorem swap_spread_monotone_witness :
    (2 : ℚ) < poolSpread poolW ∧ poolSpread poolWAfter ≤ poolSpread poolW := by
  exact swap_spread_monotone 2 poolW poolWAfter 6 2 (by with_unfolding_all decide)
    (by with_unfolding_all decide)

theorem mod_fst_nodup (pairs : List (String × ℚ)) (me xe : String × ℚ)
    (hnd : pairs.Nodup) (hme : me ∈ pairs) (hxe : xe ∉ pairs)
    (hfst : (pairs.map Prod.fst).Nodup)
    (hxefst : ∀ p ∈ pairs.erase me, p.1 ≠ xe.1) :
    ((pySetRepr (pairs.map (fun e => if e = me then xe else e))).map Prod.fst).Nodup := by
  obtain ⟨hdedup, hperm⟩ := mod_list_spec pairs me xe hnd hme hxe
  rw [hdedup]
  have hpermf := hperm.map Prod.fst
  rw [hpermf.nodup_iff, List.map_cons, List.nodup_cons]
  constructor
  · intro hc
    obtain ⟨p, hp, hpe⟩ := List.mem_map.mp hc
    exact hxefst p hp hpe
  · exact ((List.erase_sublist _ _).map Prod.fst).nodup hfst

/-- C6: under the data-model invariants (uniform pair-list length `n`,
pool-wide functional frequencies and consistent `set_only` projections),
every reference set of the pool after an accepted swap still has exactly `n`
pairs and exactly `n` member q-grams; in particular the modified minimum- and
maximum-weight sets retain their cardinality. -/
theorem swap_preserves_cardinality (n : Nat) (pool pool' : Pool) (oldR newR : ℚ)
    (hWF : PoolWF n pool) (hff : FreqFun pool) (hso : SetOnlyWF pool)
    (hstep : swapStep pool = SwapStepResult.swapped pool' oldR newR) :
    ∀ e ∈ pool', (e : Nat × WeighedSet).2.pairs.length = n ∧
      (e : Nat × WeighedSet).2.set_only.card = n := by
  obtain ⟨mn, mx, f, hmn, hmx, hscan, hassert, hpool', hold, hnew⟩ :=
    swapStep_swapped_inv pool pool' oldR newR hstep
  obtain ⟨hmnMem, _⟩ := pyMinBy_spec pool mn hmn
  obtain ⟨hmxMem, _⟩ := pyMaxBy_spec pool mx hmx
  obtain ⟨hinMin, hninMax, hinMax, hninMin, hlt, hmodMin, hmodMax, hwMin, hwMax, hrange⟩ :=
    scanPairs_spec _ _ _ _ _ _ hscan
  have hmeMem : f.minElt ∈ mn.2.pairs := mem_sortedAsc.mp hinMin
  have hxeMem : f.maxElt ∈ mx.2.pairs := mem_sortedDesc.mp hinMax
  have hmeNotMax : f.minElt ∉ mx.2.pairs := fun hc => hninMax (mem_sortedDesc.mpr hc)
  have hxeNotMin : f.maxElt ∉ mn.2.pairs := fun hc => hninMin (mem_sortedAsc.mpr hc)
  obtain ⟨hposn, hWFall⟩ := hWF
  obtain ⟨hndMn, hlenMn, _⟩ := hWFall mn hmnMem
  obtain ⟨hndMx, hlenMx, _⟩ := hWFall mx hmxMem
  obtain ⟨hlenModMin, _⟩ :=
    mod_score mn.2.pairs f.minElt f.maxElt n hndMn hmeMem hxeNotMin hlenMn hposn
  obtain ⟨hlenModMax, _⟩ :=
    mod_score mx.2.pairs f.maxElt f.minElt n hndMx hxeMem hmeNotMax hlenMx hposn
  have entryFst : ∀ e' ∈ pool, ((e' : Nat × WeighedSet).2.pairs.map Prod.fst).Nodup := by
    intro e' he'
    refine List.Nodup.map_on ?_ (hWFall e' he').1
    intro p hp q hq hpq
    exact Prod.ext hpq (hff e' he' e' he' p hp q hq hpq)
  have hndfMin : (f.modMin.map Prod.fst).Nodup := by
    rw [hmodMin]
    refine mod_fst_nodup mn.2.pairs f.minElt f.maxElt hndMn hmeMem hxeNotMin
      (entryFst mn hmnMem) ?_
    intro p hp hpe
    have hpmem : p ∈ mn.2.pairs := List.mem_of_mem_erase hp
    have hs : p.2 = f.maxElt.2 := hff mn hmnMem mx hmxMem p hpmem f.maxElt hxeMem hpe
    exact hxeNotMin (Prod.ext hpe hs ▸ hpmem)
  have hndfMax : (f.modMax.map Prod.fst).Nodup := by
    rw [hmodMax]
    refine mod_fst_nodup mx.2.pairs f.maxElt f.minElt hndMx hxeMem hmeNotMax
      (entryFst mx hmxMem) ?_
    intro p hp hpe
    have hpmem : p ∈ mx.2.pairs := List.mem_of_mem_erase hp
    have hs : p.2 = f.minElt.2 := hff mx hmxMem mn hmnMem p hpmem f.minElt hmeMem hpe
    exact hmeNotMax (Prod.ext hpe hs ▸ hpmem)
  intro e he
  rw [hpool'] at he
  rcases updatePool_score_cases _ _ _ _ _ he with he1 | hmod
  · rcases updatePool_score_cases _ _ _ _ _ he1 with he0 | hmod
    · refine ⟨(hWFall e he0).2.1, ?_⟩
      rw [hso e he0, List.toFinset_card_of_nodup (entryFst e he0), List.length_map]
      exact (hWFall e he0).2.1
    · refine ⟨?_, ?_⟩
      · rw [hmod.1, hmodMin]; exact hlenModMin
      · rw [hmod.2.1, List.toFinset_card_of_nodup hndfMin, List.length_map, hmodMin]
        exact hlenModMin
  · refine ⟨?_, ?_⟩
    · rw [hmod.1, hmodMax]; exact hlenModMax
    · rw [hmod.2.1, List.toFinset_card_of_nodup hndfMax, List.length_map, hmodMax]
      exact hlenModMax

/-- C6 witness: in the concrete accepted swap on `poolW` the modified minimum
set keeps its 2 pairs and 2 members. -/
theorem swap_preserves_cardinality_witness :
    ([("c", 9), ("b", 1)] : List (String × ℚ)).length = 2 ∧
    ({"c", "b"} : Finset String).card = 2 := by
  have h := swap_preserves_cardinality 2 poolW poolWAfter 6 2
    (by with_unfolding_all decide)
    (by with_unfolding_all decide) (by with_unfolding_all decide)
    (by with_unfolding_all decide)
  exact h (0, ⟨[("c", 9), ("b", 1)], {"c", "b"}, 5⟩) (by with_unfolding_all decide)

/-- C7 counterexample: on a two-entry pool whose sets tie on `weighted_score`,
the `max(...)` selection of line 29 picks the higher index 1, not the lower
index 0 demanded by the claim (the `min(...)` selection does pick 0). -/
theorem max_tie_breaks_to_higher_index :
    (pyMaxBy poolC7).map Prod.fst = some 1 ∧ (pyMinBy poolC7).map Prod.fst = some 0 ∧
    (1 : Nat) ≠ 0 := by
  refine ⟨?_, ?_, by decide⟩
  · with_unfolding_all decide
  · with_unfolding_all decide

/-- C7 amended: in each iteration the globally extreme entries are selected,
with score ties broken towards the *lower* index for the minimum selection and
towards the *higher* index for the maximum selection. -/
theorem min_max_selection (pool : Pool) (mn mx : Nat × WeighedSet)
    (hmn : pyMinBy pool = some mn) (hmx : pyMaxBy pool = some mx) :
    mn ∈ pool ∧ mx ∈ pool ∧
    (∀ x ∈ pool, mn.2.weighted_score < (x : Nat × WeighedSet).2.weighted_score ∨
      (mn.2.weighted_score = (x : Nat × WeighedSet).2.weighted_score ∧ mn.1 ≤ x.1)) ∧
    (∀ x ∈ pool, (x : Nat × WeighedSet).2.weighted_score < mx.2.weighted_score ∨
      ((x : Nat × WeighedSet).2.weighted_score = mx.2.weighted_score ∧ x.1 ≤ mx.1)) := by
  obtain ⟨h1, h2⟩ := pyMinBy_spec pool mn hmn
  obtain ⟨h3, h4⟩ := pyMaxBy_spec pool mx hmx
  exact ⟨h1, h3, fun x hx => h2 x hx, fun x hx => h4 x hx⟩

/-- C7 amended witness: the tied pool, selections applied concretely. -/
theorem min_max_selection_witness :
    ((0, (⟨[("a", 1)], {"a"}, 1⟩ : WeighedSet)) ∈ poolC7) ∧
    ((1, (⟨[("b", 1)], {"b"}, 1⟩ : WeighedSet)) ∈ poolC7) := by
  have h := min_max_selection poolC7 (0, ⟨[("a", 1)], {"a"}, 1⟩)
    (1, ⟨[("b", 1)], {"b"}, 1⟩) (by with_unfolding_all decide)
    (by with_unfolding_all decide)
  exact ⟨h.1, h.2.1⟩

/-- C5 (code-bug exhibit): the uniqueness guard of line 50 compares Python
sets against the tuples stored in `random_sets` and therefore never rejects,
so this accepted swap turns entry 0 into an exact duplicate of entry 1's
member set — the pairwise-uniqueness invariant is not preserved. -/
theorem freq_swap_uniqueness_violated :
    swapStep poolC5 = SwapStepResult.swapped poolC5After 6 2 ∧
    poolC5After.map (fun e => (e : Nat × WeighedSet).2.pairs.toFinset) =
      [({("b", 1), ("c", 9)} : Finset (String × ℚ)), {("b", 1), ("c", 9)},
        {("a", 1), ("d", 5)}] := by
  constructor
  · with_unfolding_all decide
  · with_unfolding_all decide

/-! ## Claims about the driver -/

/-- C10 amended: with swapping enabled, `generate_random_q_gram_sets` never
returns normally (the dict returned by `frequency_based_rank_swapping` is
unpacked into two variables, which raises `ValueError` unless it has exactly
two keys, and in that case the key bound to `processed_indexed_r` raises
`AttributeError` on `.items()`); and the dict-into-two-variables unpacking at
the signature-extraction step succeeds exactly when the dataset holds exactly
two records — so a run can complete normally, but only with swapping disabled
and two-record datasets. -/
theorem driver_unpacking_behavior :
    (∀ (fuel : Nat) (rows : List (List String)) (freq : String → Option Int),
      generate_random_q_gram_sets fuel rows freq true = none) ∧
    (∀ out : List (String × List Bool),
      (unpackTwo (out.map Prod.fst)).isSome ↔ out.length = 2) := by
  constructor
  · intro fuel rows freq
    simp only [generate_random_q_gram_sets]
    by_cases h : (weigh_random_sets rows freq).isEmpty
    · rw [if_pos h]
    · rw [if_neg h]
      cases hs : frequency_based_rank_swapping fuel (weigh_random_sets rows freq) with
      | none => simp [hs]
      | some d =>
        cases hu : unpackTwo (d.map Prod.fst) with
        | none => simp [hs, hu]
        | some p => simp [hs, hu]
  · intro out
    rcases out with _ | ⟨a, _ | ⟨b, _ | ⟨c, t⟩⟩⟩ <;> simp [unpackTwo]

/-- C10 counterexample: a swap-disabled run whose two datasets each hold
exactly two usable records completes normally, so a full driver run does not
always raise. -/
theorem driver_completes_on_two_record_datasets :
    (driver_core 5 1 [("r1", {"ab"}), ("r2", {"ab", "cd"})]
      [("s1", {"cd"}), ("s2", {"ab", "cd"})] [["ab"], ["cd"]]
      (fun _ => none) false).isSome = true := by
  with_unfolding_all decide

/-! ## Helper lemmas about the bucket dict of the generator -/

theorem clookup_mem : ∀ (c : Counter) (key : Nat) (b : List String),
    clookup c key = some b → (key, b) ∈ c := by
  intro c
  induction c with
  | nil => intro key b h; simp [clookup] at h
  | cons e es ih =>
    intro key b h
    simp only [clookup] at h
    split at h
    next he =>
      simp only [Option.some.injEq] at h
      have : (key, b) = e := by rw [← he, ← h]
      rw [this]
      exact List.mem_cons_self _ _
    next he => exact List.mem_cons_of_mem _ (ih key b h)

theorem clookup_eq_none : ∀ (c : Counter) (key : Nat), key ∉ c.map Prod.fst →
    clookup c key = none := by
  intro c
  induction c with
  | nil => intro key _; rfl
  | cons e es ih =>
    intro key hk
    simp only [List.map_cons, List.mem_cons, not_or] at hk
    have hne : ¬ (e.1 = key) := fun he => hk.1 he.symm
    simp only [clookup, if_neg hne]
    exact ih key hk.2

theorem clookup_csetKey_self : ∀ (c : Counter) (key : Nat) (v : List String),
    clookup (csetKey c key v) key = some v := by
  intro c
  induction c with
  | nil => intro key v; simp [csetKey, clookup]
  | cons e es ih =>
    intro key v
    simp only [csetKey]
    split
    next he => simp [clookup]
    next he => simp only [clookup, if_neg he]; exact ih key v

theorem clookup_csetKey_ne : ∀ (c : Counter) (key key' : Nat) (v : List String),
    key' ≠ key → clookup (csetKey c key v) key' = clookup c key' := by
  intro c
  induction c with
  | nil =>
    intro key key' v hne
    simp only [csetKey, clookup]
    rw [if_neg (Ne.symm hne)]
  | cons e es ih =>
    intro key key' v hne
    simp only [csetKey]
    split
    next he =>
      have h1 : ¬ (e.1 = key') := by rw [he]; exact Ne.symm hne
      simp only [clookup, if_neg (Ne.symm hne), if_neg h1]
    next he =>
      simp only [clookup]
      split
      · rfl
      · exact ih key key' v hne

theorem ceraseKey_sublist : ∀ (c : Counter) (key : Nat), (ceraseKey c key).Sublist c := by
  intro c
  induction c with
  | nil => intro key; simp [ceraseKey]
  | cons e es ih =>
    intro key
    simp only [ceraseKey]
    split
    · exact List.sublist_cons_self e es
    · exact (ih key).cons₂ e

theorem clookup_ceraseKey_ne : ∀ (c : Counter) (key key' : Nat), key' ≠ key →
    clookup (ceraseKey c key) key' = clookup c key' := by
  intro c
  induction c with
  | nil => intro key key' _; rfl
  | cons e es ih =>
    intro key key' hne
    simp only [ceraseKey]
    split
    next he =>
      have h1 : ¬ (e.1 = key') := by rw [he]; exact Ne.symm hne
      simp only [clookup, if_neg h1]
    next he =>
      simp only [clookup]
      split
      · rfl
      · exact ih key key' hne

theorem clookup_ceraseKey_self : ∀ (c : Counter) (key : Nat),
    (c.map Prod.fst).Nodup → clookup (ceraseKey c key) key = none := by
  intro c
  induction c with
  | nil => intro key _; rfl
  | cons e es ih =>
    intro key hnd
    simp only [List.map_cons, List.nodup_cons] at hnd
    simp only [ceraseKey]
    split
    next he =>
      apply clookup_eq_none
      rw [← he]
      exact hnd.1
    next he => simp only [clookup, if_neg he]; exact ih key hnd.2

theorem csetKey_fst_mem : ∀ (c : Counter) (key : Nat) (v : List String) (x : Nat),
    x ∈ (csetKey c key v).map Prod.fst → x ∈ c.map Prod.fst ∨ x = key := by
  intro c
  induction c with
  | nil =>
    intro key v x hx
    simp [csetKey] at hx
    exact Or.inr hx
  | cons e es ih =>
    intro key v x hx
    simp only [csetKey] at hx
    split at hx
    next he =>
      simp only [List.map_cons, List.mem_cons] at hx
      rcases hx with rfl | hx
      · exact Or.inr rfl
      · exact Or.inl (by simp [hx])
    next he =>
      simp only [List.map_cons, List.mem_cons] at hx ⊢
      rcases hx with rfl | hx
      · exact Or.inl (Or.inl rfl)
      · rcases ih key v x hx with h | h
        · exact Or.inl (Or.inr h)
        · exact Or.inr h

theorem csetKey_fst_nodup : ∀ (c : Counter) (key : Nat) (v : List String),
    (c.map Prod.fst).Nodup → ((csetKey c key v).map Prod.fst).Nodup := by
  intro c
  induction c with
  | nil => intro key v _; simp [csetKey]
  | cons e es ih =>
    intro key v hnd
    simp only [List.map_cons, List.nodup_cons] at hnd
    simp only [csetKey]
    split
    next he =>
      simp only [List.map_cons, List.nodup_cons]
      exact ⟨he ▸ hnd.1, hnd.2⟩
    next he =>
      simp only [List.map_cons, List.nodup_cons]
      refine ⟨?_, ih key v hnd.2⟩
      intro hc
      rcases csetKey_fst_mem es key v e.1 hc with h | h
      · exact hnd.1 h
      · exact he h

theorem ceraseKey_fst_nodup (c : Counter) (key : Nat)
    (hnd : (c.map Prod.fst).Nodup) : ((ceraseKey c key).map Prod.fst).Nodup :=
  ((ceraseKey_sublist c key).map Prod.fst).nodup hnd

theorem clookup_of_mem : ∀ (c : Counter), (c.map Prod.fst).Nodup →
    ∀ (key : Nat) (b : List String), (key, b) ∈ c → clookup c key = some b := by
  intro c
  induction c with
  | nil => intro _ key b h; simp at h
  | cons e es ih =>
    intro hnd key b h
    simp only [List.map_cons, List.nodup_cons] at hnd
    rcases List.mem_cons.mp h with he | he
    · rw [← he]
      simp [clookup]
    · have hne : ¬ (e.1 = key) := by
        intro hk
        have hmem : e.1 ∈ es.map Prod.fst := by
          rw [hk]; exact List.mem_map.mpr ⟨(key, b), he, rfl⟩
        exact hnd.1 hmem
      simp only [clookup, if_neg hne]
      exact ih hnd.2 key b he

theorem occ_nil (g : String) : occ [] g = 0 := rfl

theorem occ_append (sets : List (Finset String)) (s : Finset String) (g : String) :
    occ (sets ++ [s]) g = occ sets g + (if g ∈ s then 1 else 0) := by
  simp [occ, List.countP_append, List.countP_cons]

theorem CInv_congr (alpha : List String) (pos pos' : String → Nat) (c : Counter)
    (hpp : ∀ x, pos x = pos' x) (h : CInv alpha pos c) : CInv alpha pos' c := by
  refine ⟨h.keysNodup, h.bucketsNodup, h.bucketsSub, ?_, ?_⟩
  · intro g hg
    rcases h.located g hg with ⟨b, hb, hgb⟩
    exact ⟨b, (hpp g) ▸ hb, hgb⟩
  · intro key b g hb hgb
    rw [← hpp g]
    exact h.uniq key b g hb hgb

theorem check_q_gram_availability_spec (c : Counter) (k : Nat)
    (h : check_q_gram_availability c k = true) :
    ∀ key b, clookup c key = some b → key < k → b = [] := by
  intro key b hb hk
  have hmem := clookup_mem c key b hb
  have hall := List.all_eq_true.mp h _ hmem
  simp only [Bool.not_eq_true', Bool.and_eq_false_iff, decide_eq_false_iff_not,
    Bool.not_eq_false, List.isEmpty_iff] at hall
  rcases hall with h1 | h2
  · exact absurd hk h1
  · simpa using h2

theorem moveOneGo_eq (c : Counter) (key : Nat) (g : String) (bucket : List String) :
    moveOneGo c key g bucket =
      csetKey (if (bucket.erase g).isEmpty then ceraseKey c key
          else csetKey c key (bucket.erase g))
        (key + 1)
        (((clookup (if (bucket.erase g).isEmpty then ceraseKey c key
            else csetKey c key (bucket.erase g)) (key + 1)).getD []) ++ [g]) := rfl

theorem moveOne_spec (alpha : List String) (pos : String → Nat) (c : Counter)
    (g : String) (key : Nat) (inv : CInv alpha pos c) (hg : g ∈ alpha)
    (hkey : pos g = key) :
    ∃ c', moveOne c key g = some c' ∧ CInv alpha (bump pos g) c' := by
  rcases inv.located g hg with ⟨b, hb, hgb⟩
  rw [hkey] at hb
  have hbnd : b.Nodup := inv.bucketsNodup key b hb
  have hbsub : ∀ x ∈ b, x ∈ alpha := inv.bucketsSub key b hb
  have hbpos : ∀ x ∈ b, pos x = key := fun x hx => (inv.uniq key b x hb hx).symm
  have hmv : moveOne c key g = some (moveOneGo c key g b) := by
    unfold moveOne
    rw [hb]
    simp [hgb]
  refine ⟨moveOneGo c key g b, hmv, ?_⟩
  rw [moveOneGo_eq]
  set b' := b.erase g with hbp
  set c1 := if b'.isEmpty then ceraseKey c key else csetKey c key b' with hc1
  set nb := (clookup c1 (key + 1)).getD [] with hnb
  have hmemb' : ∀ x, x ∈ b' ↔ (x ≠ g ∧ x ∈ b) := fun x => List.Nodup.mem_erase_iff hbnd
  have hgb' : g ∉ b' := fun h => ((hmemb' g).mp h).1 rfl
  have hc1nd : (c1.map Prod.fst).Nodup := by
    rw [hc1]
    split
    · exact ceraseKey_fst_nodup c key inv.keysNodup
    · exact csetKey_fst_nodup c key b' inv.keysNodup
  have hc1ne : ∀ key', key' ≠ key → clookup c1 key' = clookup c key' := by
    intro key' hk
    rw [hc1]
    split
    · exact clookup_ceraseKey_ne c key key' hk
    · exact clookup_csetKey_ne c key key' b' hk
  have hc1self : ∀ b'', clookup c1 key = some b'' → b'' = b' := by
    intro b'' hbb
    rw [hc1] at hbb
    split at hbb
    · rw [clookup_ceraseKey_self c key inv.keysNodup] at hbb
      exact absurd hbb (by simp)
    · rw [clookup_csetKey_self c key b'] at hbb
      exact (Option.some.injEq _ _ ▸ hbb).symm
  have hc1selfpos : ¬ b'.isEmpty → clookup c1 key = some b' := by
    intro hne
    rw [hc1, if_neg hne]
    exact clookup_csetKey_self c key b'
  have hnbC : clookup c1 (key + 1) = clookup c (key + 1) :=
    hc1ne (key + 1) (Nat.succ_ne_self key)
  have hnbfacts : nb.Nodup ∧ (∀ x ∈ nb, x ∈ alpha ∧ pos x = key + 1) := by
    rcases hcc : clookup c (key + 1) with _ | b2
    · have hnbn : nb = [] := by rw [hnb, hnbC, hcc]; rfl
      rw [hnbn]
      exact ⟨List.nodup_nil, by intro x hx; simp at hx⟩
    · have hnbeq : nb = b2 := by rw [hnb, hnbC, hcc]; rfl
      rw [hnbeq]
      exact ⟨inv.bucketsNodup _ _ hcc, fun x hx =>
        ⟨inv.bucketsSub _ _ hcc x hx, (inv.uniq _ _ x hcc hx).symm⟩⟩
  have hnbof : ∀ bh, clookup c (key + 1) = some bh → nb = bh := by
    intro bh hbh
    rw [hnb, hnbC, hbh]
    rfl
  have hgnb : g ∉ nb := by
    intro h
    have h2 := (hnbfacts.2 g h).2
    rw [hkey] at h2
    exact Nat.succ_ne_self key h2.symm
  have hC2top : clookup (csetKey c1 (key + 1) (nb ++ [g])) (key + 1) = some (nb ++ [g]) :=
    clookup_csetKey_self c1 (key + 1) (nb ++ [g])
  have hC2ne : ∀ key', key' ≠ key + 1 →
      clookup (csetKey c1 (key + 1) (nb ++ [g])) key' = clookup c1 key' :=
    fun key' hk => clookup_csetKey_ne c1 (key + 1) key' (nb ++ [g]) hk
  refine ⟨csetKey_fst_nodup c1 (key + 1) (nb ++ [g]) hc1nd, ?_, ?_, ?_, ?_⟩
  · -- bucketsNodup
    intro key' bb hbb
    by_cases hk : key' = key + 1
    · subst hk
      rw [hC2top] at hbb
      injection hbb with hbb
      rw [← hbb]
      refine List.nodup_append.mpr ⟨hnbfacts.1, List.nodup_singleton g, ?_⟩
      intro x hx hx'
      simp only [List.mem_singleton] at hx'
      subst hx'
      exact hgnb hx
    · rw [hC2ne key' hk] at hbb
      by_cases hk2 : key' = key
      · subst hk2
        rw [hc1self bb hbb]
        exact hbnd.erase g
      · rw [hc1ne key' hk2] at hbb
        exact inv.bucketsNodup key' bb hbb
  · -- bucketsSub
    intro key' bb hbb x hx
    by_cases hk : key' = key + 1
    · subst hk
      rw [hC2top] at hbb
      injection hbb with hbb
      rw [← hbb] at hx
      rcases List.mem_append.mp hx with hx | hx
      · exact (hnbfacts.2 x hx).1
      · simp only [List.mem_singleton] at hx
        subst hx
        exact hg
    · rw [hC2ne key' hk] at hbb
      by_cases hk2 : key' = key
      · subst hk2
        rw [hc1self bb hbb] at hx
        exact hbsub x ((hmemb' x).mp hx).2
      · rw [hc1ne key' hk2] at hbb
        exact inv.bucketsSub key' bb hbb x hx
  · -- located
    intro h hh
    by_cases hhg : h = g
    · subst hhg
      have hbp2 : bump pos h h = key + 1 := by
        simp [bump, hkey]
      rw [hbp2]
      exact ⟨nb ++ [h], hC2top, List.mem_append.mpr (Or.inr (List.mem_singleton.mpr rfl))⟩
    · have hbp2 : bump pos g h = pos h := by
        simp only [bump, if_neg hhg]
      rw [hbp2]
      rcases inv.located h hh with ⟨bh, hbh, hhbh⟩
      by_cases hp1 : pos h = key + 1
      · rw [hp1] at hbh ⊢
        have := hnbof bh hbh
        subst this
        exact ⟨nb ++ [g], hC2top, List.mem_append.mpr (Or.inl hhbh)⟩
      · by_cases hp2 : pos h = key
        · rw [hp2] at hbh ⊢
          have hbeq : bh = b := by
            rw [hb] at hbh
            injection hbh.symm
          subst hbeq
          have hhb' : h ∈ b' := (hmemb' h).mpr ⟨hhg, hhbh⟩
          have hne : ¬ b'.isEmpty := by
            intro he
            rw [List.isEmpty_iff.mp he] at hhb'
            simp at hhb'
          refine ⟨b', ?_, hhb'⟩
          rw [hC2ne key (fun he => Nat.succ_ne_self key he.symm)]
          exact hc1selfpos hne
        · refine ⟨bh, ?_, hhbh⟩
          rw [hC2ne (pos h) hp1, hc1ne (pos h) hp2]
          exact hbh
  · -- uniq
    intro key' bb x hbb hx
    by_cases hk : key' = key + 1
    · subst hk
      rw [hC2top] at hbb
      injection hbb with hbb
      rw [← hbb] at hx
      rcases List.mem_append.mp hx with hx | hx
      · have hxg : x ≠ g := fun he => hgnb (he ▸ hx)
        simp only [bump, if_neg hxg]
        exact ((hnbfacts.2 x hx).2).symm
      · simp only [List.mem_singleton] at hx
        subst hx
        simp [bump, hkey]
    · rw [hC2ne key' hk] at hbb
      by_cases hk2 : key' = key
      · subst hk2
        rw [hc1self bb hbb] at hx
        rcases (hmemb' x).mp hx with ⟨hxg, hxb⟩
        simp only [bump, if_neg hxg]
        exact (hbpos x hxb).symm
      · rw [hc1ne key' hk2] at hbb
        have hxp : key' = pos x := inv.uniq key' bb x hbb hx
        have hxg : x ≠ g := by
          intro he
          subst he
          rw [hkey] at hxp
          exact hk2 hxp
        simp only [bump, if_neg hxg]
        exact hxp

theorem optBind_some {α β : Type} (a : α) (f : α → Option β) : (some a >>= f) = f a := rfl

theorem update_spec (alpha : List String) (key : Nat) :
    ∀ (gs : List String) (c : Counter) (pos : String → Nat), CInv alpha pos c →
    gs.Nodup → (∀ g ∈ gs, g ∈ alpha ∧ pos g = key) →
    ∃ c', update_q_gram_counter c gs key = some c' ∧ CInv alpha (bumpAll pos gs) c' := by
  intro gs
  induction gs with
  | nil =>
    intro c pos inv _ _
    refine ⟨c, rfl, ?_⟩
    exact CInv_congr alpha pos (bumpAll pos []) c (fun x => by simp [bumpAll]) inv
  | cons g gs ih =>
    intro c pos inv hnd hmem
    simp only [List.nodup_cons] at hnd
    rcases moveOne_spec alpha pos c g key inv (hmem g (List.mem_cons_self g gs)).1
      (hmem g (List.mem_cons_self g gs)).2 with ⟨c1, hc1, inv1⟩
    have hmem2 : ∀ x ∈ gs, x ∈ alpha ∧ bump pos g x = key := by
      intro x hx
      refine ⟨(hmem x (List.mem_cons_of_mem g hx)).1, ?_⟩
      have hne : x ≠ g := fun he => hnd.1 (he ▸ hx)
      simp only [bump, if_neg hne]
      exact (hmem x (List.mem_cons_of_mem g hx)).2
    rcases ih c1 (bump pos g) inv1 hnd.2 hmem2 with ⟨c', hc', inv'⟩
    refine ⟨c', ?_, ?_⟩
    · show (g :: gs).foldlM (fun acc x => moveOne acc key x) c = some c'
      rw [List.foldlM_cons]
      show moveOne c key g >>= (fun b => gs.foldlM (fun acc x => moveOne acc key x) b) = some c'
      rw [hc1, optBind_some]
      exact hc'
    · refine CInv_congr alpha (bumpAll (bump pos g) gs) (bumpAll pos (g :: gs)) c' ?_ inv'
      intro x
      by_cases hxg : x = g
      · subst hxg
        have hxgs : x ∉ gs := hnd.1
        simp [bumpAll, bump, hxgs]
      · by_cases hxgs : x ∈ gs
        · simp [bumpAll, bump, hxg, hxgs]
        · simp [bumpAll, bump, hxg, hxgs]

theorem acceptCandidate_refSets (rLength : Nat) (st : GenSt) (newTick : Nat)
    (qsR : Finset String) (groups : List (List String × Nat)) (res : Bool) (st' : GenSt)
    (h : acceptCandidate rLength st newTick qsR groups = some (res, st')) :
    (res = false ∧ st'.refSets = st.refSets ∧ st'.counter = st.counter) ∨
    (res = true ∧ qsR ∉ st.refSets ∧ qsR.card = rLength ∧
      st'.refSets = st.refSets ++ [qsR] ∧
      groups.foldlM (fun c g => update_q_gram_counter c g.1 g.2) st.counter
        = some st'.counter) := by
  unfold acceptCandidate at h
  split at h
  next hmem =>
    injection h with h
    injection h with h1 h2
    exact Or.inl ⟨h1.symm, by rw [← h2], by rw [← h2]⟩
  next hmem =>
    split at h
    next => simp at h
    next c2 hfold =>
      split at h
      next hcard =>
        injection h with h
        injection h with h1 h2
        refine Or.inr ⟨h1.symm, hmem, hcard, by rw [← h2], ?_⟩
        rw [hfold, ← h2]
      next => simp at h

theorem sampleCall_facts (sampler : Nat → List String → Nat → List String)
    (hs : SampleOK sampler) (t : Nat) (l : List String) (n : Int) (picks : List String)
    (h : sampleCall sampler t l n = some picks) :
    picks.length = n.toNat ∧ (∀ x ∈ picks, x ∈ l) ∧ (l.Nodup → picks.Nodup) := by
  unfold sampleCall at h
  split at h
  next hcond =>
    injection h with h
    subst h
    have hle : n.toNat ≤ l.length := by omega
    exact hs t l n.toNat hle
  next => simp at h

theorem acceptCandidate_inv_one (alpha : List String) (rLength : Nat) (st : GenSt)
    (newTick : Nat) (picks : List String) (ck : Nat) (st' : GenSt)
    (inv : CInv alpha (occ st.refSets) st.counter)
    (hnd : picks.Nodup) (hmem : ∀ g ∈ picks, g ∈ alpha ∧ occ st.refSets g = ck)
    (h : acceptCandidate rLength st newTick picks.toFinset [(picks, ck)] = some (true, st')) :
    CInv alpha (occ st'.refSets) st'.counter := by
  rcases acceptCandidate_refSets rLength st newTick picks.toFinset [(picks, ck)] true st' h
    with ⟨hf, _⟩ | ⟨_, _, _, hsets, hfold⟩
  · simp at hf
  · rcases update_spec alpha ck picks st.counter (occ st.refSets) inv hnd hmem with
      ⟨c', hc', inv'⟩
    have hceq : st'.counter = c' := by
      rw [List.foldlM_cons] at hfold
      have hfold2 : update_q_gram_counter st.counter picks ck >>=
          (fun c => [((picks : List String), ck)].tail.foldlM
            (fun c g => update_q_gram_counter c g.1 g.2) c) = some st'.counter := hfold
      rw [hc', optBind_some] at hfold2
      simpa using hfold2.symm
    rw [hsets, hceq]
    refine CInv_congr alpha (bumpAll (occ st.refSets) picks)
      (occ (st.refSets ++ [picks.toFinset])) c' ?_ inv'
    intro x
    rw [occ_append]
    by_cases hx : x ∈ picks
    · simp [bumpAll, hx, List.mem_toFinset]
    · simp [bumpAll, hx, List.mem_toFinset]

theorem acceptCandidate_inv_two (alpha : List String) (rLength : Nat) (st : GenSt)
    (newTick : Nat) (p1 p2 : List String) (ck : Nat) (st' : GenSt)
    (inv : CInv alpha (occ st.refSets) st.counter)
    (hnd1 : p1.Nodup) (hnd2 : p2.Nodup)
    (hmem1 : ∀ g ∈ p1, g ∈ alpha ∧ occ st.refSets g = ck)
    (hmem2 : ∀ g ∈ p2, g ∈ alpha ∧ occ st.refSets g = ck + 1)
    (h : acceptCandidate rLength st newTick (p1 ++ p2).toFinset
        [(p1, ck), (p2, ck + 1)] = some (true, st')) :
    CInv alpha (occ st'.refSets) st'.counter := by
  have hdisj : ∀ x ∈ p1, x ∉ p2 := by
    intro x hx1 hx2
    have h1 := (hmem1 x hx1).2
    have h2 := (hmem2 x hx2).2
    omega
  rcases acceptCandidate_refSets rLength st newTick (p1 ++ p2).toFinset
      [(p1, ck), (p2, ck + 1)] true st' h with ⟨hf, _⟩ | ⟨_, _, _, hsets, hfold⟩
  · simp at hf
  · rcases update_spec alpha ck p1 st.counter (occ st.refSets) inv hnd1 hmem1 with
      ⟨c1, hc1, inv1⟩
    have hmem2' : ∀ g ∈ p2, g ∈ alpha ∧ bumpAll (occ st.refSets) p1 g = ck + 1 := by
      intro g hg
      refine ⟨(hmem2 g hg).1, ?_⟩
      have hgp1 : g ∉ p1 := fun hx => hdisj g hx hg
      simp [bumpAll, hgp1, (hmem2 g hg).2]
    rcases update_spec alpha (ck + 1) p2 c1 (bumpAll (occ st.refSets) p1) inv1 hnd2 hmem2'
      with ⟨c2, hc2, inv2⟩
    have hceq : st'.counter = c2 := by
      rw [List.foldlM_cons] at hfold
      have hfold2 : update_q_gram_counter st.counter p1 ck >>=
          (fun c => [((p2 : List String), ck + 1)].foldlM
            (fun c g => update_q_gram_counter c g.1 g.2) c) = some st'.counter := hfold
      rw [hc1, optBind_some, List.foldlM_cons] at hfold2
      have hfold3 : update_q_gram_counter c1 p2 (ck + 1) >>=
          (fun c => ([] : List (List String × Nat)).foldlM
            (fun c g => update_q_gram_counter c g.1 g.2) c) = some st'.counter := hfold2
      rw [hc2, optBind_some] at hfold3
      simpa using hfold3.symm
    rw [hsets, hceq]
    refine CInv_congr alpha (bumpAll (bumpAll (occ st.refSets) p1) p2)
      (occ (st.refSets ++ [(p1 ++ p2).toFinset])) c2 ?_ inv2
    intro x
    rw [occ_append]
    by_cases hx1 : x ∈ p1
    · have hx2 : x ∉ p2 := hdisj x hx1
      simp [bumpAll, hx1, hx2, List.mem_toFinset]
    · by_cases hx2 : x ∈ p2
      · simp [bumpAll, hx1, hx2, List.mem_toFinset]
      · simp [bumpAll, hx1, hx2, List.mem_toFinset]

theorem nodup_append_one {α : Type} (l : List α) (a : α) (h : l.Nodup) (ha : a ∉ l) :
    (l ++ [a]).Nodup := by
  refine List.nodup_append.mpr ⟨h, List.nodup_singleton a, ?_⟩
  intro x hx hx'
  simp only [List.mem_singleton] at hx'
  subst hx'
  exact ha hx

theorem genAttempt_refSets (rLength : Nat) (sampler : Nat → List String → Nat → List String)
    (counterKey : Nat) (snapshot : List String) (tryCounter : Nat) (st : GenSt)
    (res : Bool) (st' : GenSt)
    (h : genAttempt rLength sampler counterKey snapshot tryCounter st = some (res, st')) :
    st'.refSets = st.refSets ∨
      ∃ qsR, qsR ∉ st.refSets ∧ qsR.card = rLength ∧
        st'.refSets = st.refSets ++ [qsR] := by
  simp only [genAttempt] at h
  split at h
  next hlen =>
    split at h
    next hvar =>
      split at h
      next => simp at h
      next pick1 hpick1 =>
        split at h
        next hr1 =>
          split at h
          next => simp at h
          next nextBucket hnbeq =>
            split at h
            next hle =>
              split at h
              next => simp at h
              next picksNext hpicks =>
                rcases acceptCandidate_refSets _ _ _ _ _ _ _ h with
                  ⟨_, h1, _⟩ | ⟨_, h1, h2, h3, _⟩
                · exact Or.inl h1
                · exact Or.inr ⟨_, h1, h2, h3⟩
            next hle =>
              injection h with h
              injection h with h1 h2
              exact Or.inl (by rw [← h2])
        next hr1 =>
          injection h with h
          injection h with h1 h2
          exact Or.inl (by rw [← h2])
    next hvar =>
      split at h
      next => simp at h
      next picks hpicks =>
        rcases acceptCandidate_refSets _ _ _ _ _ _ _ h with
          ⟨_, h1, _⟩ | ⟨_, h1, h2, h3, _⟩
        · exact Or.inl h1
        · exact Or.inr ⟨_, h1, h2, h3⟩
  next hlen =>
    split at h
    next => simp at h
    next nextBucket hnbeq =>
      split at h
      next hle =>
        split at h
        next => simp at h
        next picksNext hpicks =>
          rcases acceptCandidate_refSets _ _ _ _ _ _ _ h with
            ⟨_, h1, _⟩ | ⟨_, h1, h2, h3, _⟩
          · exact Or.inl h1
          · exact Or.inr ⟨_, h1, h2, h3⟩
      next hle =>
        injection h with h
        injection h with h1 h2
        exact Or.inl (by rw [← h2])

theorem genAttempt_spec (alpha : List String) (rLength : Nat)
    (sampler : Nat → List String → Nat → List String) (counterKey : Nat)
    (snapshot : List String) (tryCounter : Nat) (st st' : GenSt) (res : Bool)
    (hs : SampleOK sampler)
    (inv : CInv alpha (occ st.refSets) st.counter)
    (hsnap : clookup st.counter counterKey = some snapshot)
    (h : genAttempt rLength sampler counterKey snapshot tryCounter st = some (res, st')) :
    (res = false → st'.refSets = st.refSets ∧ st'.counter = st.counter) ∧
    (res = true → ∃ qsR, qsR ∉ st.refSets ∧ qsR.card = rLength ∧
      st'.refSets = st.refSets ++ [qsR] ∧ CInv alpha (occ st'.refSets) st'.counter) := by
  have hsnapN : snapshot.Nodup := inv.bucketsNodup _ _ hsnap
  have hsnapM : ∀ g ∈ snapshot, g ∈ alpha ∧ occ st.refSets g = counterKey :=
    fun g hgs => ⟨inv.bucketsSub _ _ hsnap g hgs, (inv.uniq _ _ g hsnap hgs).symm⟩
  simp only [genAttempt] at h
  split at h
  next hlen =>
    split at h
    next hvar =>
      split at h
      next => simp at h
      next pick1 hpick1 =>
        split at h
        next hr1 =>
          split at h
          next => simp at h
          next nextBucket hnbeq =>
            have hnbN : nextBucket.Nodup := inv.bucketsNodup _ _ hnbeq
            have hnbM : ∀ g ∈ nextBucket, g ∈ alpha ∧ occ st.refSets g = counterKey + 1 :=
              fun g hgs => ⟨inv.bucketsSub _ _ hnbeq g hgs,
                (inv.uniq _ _ g hnbeq hgs).symm⟩
            split at h
            next hle =>
              split at h
              next => simp at h
              next picksNext hpicks =>
                rcases sampleCall_facts sampler hs _ _ _ _ hpick1 with ⟨_, hsub1, hnd1⟩
                rcases sampleCall_facts sampler hs _ _ _ _ hpicks with ⟨_, hsub2, hnd2⟩
                constructor
                · intro hres
                  subst hres
                  rcases acceptCandidate_refSets _ _ _ _ _ _ _ h with
                    ⟨_, h1, h2⟩ | ⟨htr, _⟩
                  · exact ⟨h1, h2⟩
                  · simp at htr
                · intro hres
                  subst hres
                  rcases acceptCandidate_refSets _ _ _ _ _ _ _ h with
                    ⟨hf, _⟩ | ⟨_, hnm, hcard, hsets, _⟩
                  · simp at hf
                  · refine ⟨_, hnm, hcard, hsets, ?_⟩
                    exact acceptCandidate_inv_two alpha rLength st _ pick1 picksNext
                      counterKey st' inv (hnd1 hsnapN) (hnd2 hnbN)
                      (fun g hgp => hsnapM g (hsub1 g hgp))
                      (fun g hgp => hnbM g (hsub2 g hgp)) h
            next hle =>
              injection h with h
              injection h with h1 h2
              refine ⟨fun _ => ⟨by rw [← h2], by rw [← h2]⟩, fun htr => ?_⟩
              rw [htr] at h1
              simp at h1
        next hr1 =>
          injection h with h
          injection h with h1 h2
          refine ⟨fun _ => ⟨by rw [← h2], by rw [← h2]⟩, fun htr => ?_⟩
          rw [htr] at h1
          simp at h1
    next hvar =>
      split at h
      next => simp at h
      next picks hpicks =>
        rcases sampleCall_facts sampler hs _ _ _ _ hpicks with ⟨_, hsub1, hnd1⟩
        constructor
        · intro hres
          subst hres
          rcases acceptCandidate_refSets _ _ _ _ _ _ _ h with ⟨_, h1, h2⟩ | ⟨htr, _⟩
          · exact ⟨h1, h2⟩
          · simp at htr
        · intro hres
          subst hres
          rcases acceptCandidate_refSets _ _ _ _ _ _ _ h with
            ⟨hf, _⟩ | ⟨_, hnm, hcard, hsets, _⟩
          · simp at hf
          · refine ⟨_, hnm, hcard, hsets, ?_⟩
            exact acceptCandidate_inv_one alpha rLength st _ picks counterKey st' inv
              (hnd1 hsnapN) (fun g hgp => hsnapM g (hsub1 g hgp)) h
  next hlen =>
    split at h
    next => simp at h
    next nextBucket hnbeq =>
      have hnbN : nextBucket.Nodup := inv.bucketsNodup _ _ hnbeq
      have hnbM : ∀ g ∈ nextBucket, g ∈ alpha ∧ occ st.refSets g = counterKey + 1 :=
        fun g hgs => ⟨inv.bucketsSub _ _ hnbeq g hgs, (inv.uniq _ _ g hnbeq hgs).symm⟩
      split at h
      next hle =>
        split at h
        next => simp at h
        next picksNext hpicks =>
          rcases sampleCall_facts sampler hs _ _ _ _ hpicks with ⟨_, hsub2, hnd2⟩
          constructor
          · intro hres
            subst hres
            rcases acceptCandidate_refSets _ _ _ _ _ _ _ h with ⟨_, h1, h2⟩ | ⟨htr, _⟩
            · exact ⟨h1, h2⟩
            · simp at htr
          · intro hres
            subst hres
            rcases acceptCandidate_refSets _ _ _ _ _ _ _ h with
              ⟨hf, _⟩ | ⟨_, hnm, hcard, hsets, _⟩
            · simp at hf
            · refine ⟨_, hnm, hcard, hsets, ?_⟩
              exact acceptCandidate_inv_two alpha rLength st _ snapshot picksNext
                counterKey st' inv hsnapN (hnd2 hnbN)
                hsnapM (fun g hgp => hnbM g (hsub2 g hgp)) h
      next hle =>
        injection h with h
        injection h with h1 h2
        refine ⟨fun _ => ⟨by rw [← h2], by rw [← h2]⟩, fun htr => ?_⟩
        rw [htr] at h1
        simp at h1

theorem genInner_nodup (rLength : Nat) (sampler : Nat → List String → Nat → List String)
    (counterKey : Nat) (snapshot : List String) :
    ∀ (fuel tryCounter : Nat) (st st' : GenSt),
    genInner rLength sampler counterKey snapshot fuel tryCounter st = some st' →
    st.refSets.Nodup → st'.refSets.Nodup := by
  intro fuel
  induction fuel with
  | zero => intro tryCounter st st' h; simp [genInner] at h
  | succ fuel ih =>
    intro tryCounter st st' h hnd
    simp only [genInner] at h
    split at h
    next => simp at h
    next st1 heq =>
      injection h with h
      subst h
      rcases genAttempt_refSets _ _ _ _ _ _ _ _ heq with h1 | ⟨q, hq, _, h3⟩
      · rw [h1]; exact hnd
      · rw [h3]; exact nodup_append_one _ _ hnd hq
    next st1 heq =>
      refine ih _ st1 st' h ?_
      rcases genAttempt_refSets _ _ _ _ _ _ _ _ heq with h1 | ⟨q, hq, _, h3⟩
      · rw [h1]; exact hnd
      · rw [h3]; exact nodup_append_one _ _ hnd hq

theorem genOuter_nodup (rLength : Nat) (sampler : Nat → List String → Nat → List String)
    (k : Nat) :
    ∀ (fuel : Nat) (st : GenSt) (out : List (Finset String)),
    genOuter rLength sampler k fuel st = some out → st.refSets.Nodup → out.Nodup := by
  intro fuel
  induction fuel with
  | zero => intro st out h; simp [genOuter] at h
  | succ fuel ih =>
    intro st out h hnd
    simp only [genOuter] at h
    split at h
    next =>
      injection h with h
      rw [← h]
      exact hnd
    next =>
      split at h
      next => simp at h
      next counterKey hmin =>
        split at h
        next => simp at h
        next bucket hbeq =>
          split at h
          next => simp at h
          next st1 hinner =>
            exact ih st1 out h
              (genInner_nodup rLength sampler counterKey bucket fuel 0 st st1 hinner hnd)

theorem ref_set_generator_nodup (fuel rLength : Nat) (q_c : List String)
    (sampler : Nat → List String → Nat → List String) (k : Nat)
    (out : List (Finset String))
    (h : ref_set_generator fuel rLength q_c sampler k = some out) : out.Nodup := by
  unfold ref_set_generator at h
  exact genOuter_nodup rLength sampler k fuel _ out h List.nodup_nil

theorem genInner_inv (alpha : List String) (rLength : Nat)
    (sampler : Nat → List String → Nat → List String) (counterKey : Nat)
    (snapshot : List String) (hs : SampleOK sampler) :
    ∀ (fuel tryCounter : Nat) (st st' : GenSt),
    genInner rLength sampler counterKey snapshot fuel tryCounter st = some st' →
    CInv alpha (occ st.refSets) st.counter →
    clookup st.counter counterKey = some snapshot →
    st.refSets.Nodup → (∀ s ∈ st.refSets, s.card = rLength) →
    CInv alpha (occ st'.refSets) st'.counter ∧ st'.refSets.Nodup ∧
      (∀ s ∈ st'.refSets, s.card = rLength) := by
  intro fuel
  induction fuel with
  | zero => intro tryCounter st st' h; simp [genInner] at h
  | succ fuel ih =>
    intro tryCounter st st' h inv hsnap hnd hcards
    simp only [genInner] at h
    split at h
    next => simp at h
    next st1 heq =>
      injection h with h
      subst h
      rcases (genAttempt_spec alpha rLength sampler counterKey snapshot _ st st1 true
          hs inv hsnap heq).2 rfl with ⟨qsR, hnm, hcard, hsets, inv'⟩
      refine ⟨inv', ?_, ?_⟩
      · rw [hsets]
        exact nodup_append_one _ _ hnd hnm
      · intro s hsm
        rw [hsets] at hsm
        rcases List.mem_append.mp hsm with hsm | hsm
        · exact hcards s hsm
        · simp only [List.mem_singleton] at hsm
          subst hsm
          exact hcard
    next st1 heq =>
      rcases (genAttempt_spec alpha rLength sampler counterKey snapshot _ st st1 false
          hs inv hsnap heq).1 rfl with ⟨hrs, hct⟩
      exact ih _ st1 st' h (by rw [hrs, hct]; exact inv) (by rw [hct]; exact hsnap)
        (by rw [hrs]; exact hnd) (by rw [hrs]; exact hcards)

theorem genOuter_inv (alpha : List String) (rLength : Nat)
    (sampler : Nat → List String → Nat → List String) (k : Nat)
    (hs : SampleOK sampler) :
    ∀ (fuel : Nat) (st : GenSt) (out : List (Finset String)),
    genOuter rLength sampler k fuel st = some out →
    CInv alpha (occ st.refSets) st.counter →
    st.refSets.Nodup → (∀ s ∈ st.refSets, s.card = rLength) →
    out.Nodup ∧ (∀ s ∈ out, s.card = rLength) ∧ (∀ g ∈ alpha, k ≤ occ out g) := by
  intro fuel
  induction fuel with
  | zero => intro st out h; simp [genOuter] at h
  | succ fuel ih =>
    intro st out h inv hnd hcards
    simp only [genOuter] at h
    split at h
    next hcheck =>
      injection h with h
      subst h
      refine ⟨hnd, hcards, ?_⟩
      intro g hg
      rcases inv.located g hg with ⟨b, hb, hgb⟩
      by_contra hlt
      push_neg at hlt
      have hbe := check_q_gram_availability_spec st.counter k hcheck _ _ hb hlt
      rw [hbe] at hgb
      simp at hgb
    next hcheck =>
      split at h
      next => simp at h
      next counterKey hmin =>
        split at h
        next => simp at h
        next bucket hbeq =>
          split at h
          next => simp at h
          next st1 hinner =>
            rcases genInner_inv alpha rLength sampler counterKey bucket hs fuel 0 st st1
              hinner inv hbeq hnd hcards with ⟨inv1, hnd1, hcards1⟩
            exact ih st1 out h inv1 hnd1 hcards1

theorem counter0_keys (k : Nat) (q_c : List String) :
    ((List.range (k + 1)).map
        (fun i => (i, if i = 0 then q_c else ([] : List String)))).map Prod.fst
      = List.range (k + 1) := by
  simp [List.map_map, Function.comp_def]

theorem counter0_lookup (k : Nat) (q_c : List String) (key : Nat) (hk : key < k + 1) :
    clookup ((List.range (k + 1)).map
        (fun i => (i, if i = 0 then q_c else ([] : List String)))) key
      = some (if key = 0 then q_c else []) := by
  apply clookup_of_mem
  · rw [counter0_keys]
    exact List.nodup_range _
  · exact List.mem_map.mpr ⟨key, List.mem_range.mpr hk, rfl⟩

theorem counter0_lookup_inv (k : Nat) (q_c : List String) (key : Nat) (b : List String)
    (h : clookup ((List.range (k + 1)).map
        (fun i => (i, if i = 0 then q_c else ([] : List String)))) key = some b) :
    key < k + 1 ∧ b = (if key = 0 then q_c else []) := by
  have hm := clookup_mem _ _ _ h
  simp only [List.mem_map, List.mem_range] at hm
  rcases hm with ⟨i, hi, heq⟩
  injection heq with h1 h2
  subst h1
  exact ⟨hi, h2.symm⟩

theorem counter0_CInv (k : Nat) (q_c : List String) (hq : q_c.Nodup) :
    CInv q_c (occ []) ((List.range (k + 1)).map
      (fun i => (i, if i = 0 then q_c else ([] : List String)))) := by
  refine ⟨?_, ?_, ?_, ?_, ?_⟩
  · rw [counter0_keys]
    exact List.nodup_range _
  · intro key b hb
    rcases counter0_lookup_inv k q_c key b hb with ⟨_, hbe⟩
    rw [hbe]
    split
    · exact hq
    · exact List.nodup_nil
  · intro key b hb g hg
    rcases counter0_lookup_inv k q_c key b hb with ⟨_, hbe⟩
    rw [hbe] at hg
    split at hg
    · exact hg
    · simp at hg
  · intro g hg
    refine ⟨q_c, ?_, hg⟩
    have h0 : occ [] g = 0 := rfl
    rw [h0]
    have hl := counter0_lookup k q_c 0 (Nat.succ_pos k)
    simpa using hl
  · intro key b g hb hg
    rcases counter0_lookup_inv k q_c key b hb with ⟨_, hbe⟩
    rw [hbe] at hg
    split at hg
    next h0 => rw [h0]; rfl
    next h0 => simp at hg

theorem takeSampler_ok : SampleOK takeSampler := by
  intro t l n hn
  refine ⟨?_, ?_, ?_⟩
  · simp [takeSampler]
    omega
  · intro x hx
    exact List.take_subset n l hx
  · intro hnd
    exact (List.take_sublist n l).nodup hnd

/-- C2: for every duplicate-free alphabet of q-grams, reference-set length no
larger than the alphabet size, coverage requirement `k`, and well-behaved
sampler: if `ref_set_generator` returns a list, it consists of
pairwise-distinct q-gram sets, each of cardinality exactly `rLength`, such
that every alphabet q-gram belongs to at least `k` of the returned sets. -/
theorem ref_set_generator_spec (fuel rLength : Nat) (q_c : List String)
    (sampler : Nat → List String → Nat → List String) (k : Nat)
    (out : List (Finset String))
    (hs : SampleOK sampler) (hq : q_c.Nodup) (_hrl : rLength ≤ q_c.length)
    (h : ref_set_generator fuel rLength q_c sampler k = some out) :
    out.Nodup ∧ (∀ s ∈ out, s.card = rLength) ∧ ∀ g ∈ q_c, k ≤ occ out g := by
  unfold ref_set_generator at h
  exact genOuter_inv q_c rLength sampler k hs fuel ⟨[], _, 0⟩ out h
    (counter0_CInv k q_c hq) List.nodup_nil (by intro s hsm; simp at hsm)

/-- C2 witness: a concrete run on the alphabet of two q-grams with
`rLength = 2`, `k = 1` and the take-prefix sampler returns one set covering
both q-grams at least once. -/
theorem ref_set_generator_spec_witness :
    SampleOK takeSampler ∧ (["ab", "ba"] : List String).Nodup ∧
      2 ≤ (["ab", "ba"] : List String).length ∧
      ref_set_generator 3 2 ["ab", "ba"] takeSampler 1
        = some [({"ab", "ba"} : Finset String)] ∧
      ([({"ab", "ba"} : Finset String)].Nodup ∧
        (∀ s ∈ [({"ab", "ba"} : Finset String)], s.card = 2) ∧
        ∀ g ∈ ["ab", "ba"], 1 ≤ occ [({"ab", "ba"} : Finset String)] g) :=
  ⟨takeSampler_ok, by decide, by decide, by with_unfolding_all decide,
    ref_set_generator_spec 3 2 ["ab", "ba"] takeSampler 1 [({"ab", "ba"} : Finset String)]
      takeSampler_ok (by decide) (by decide) (by with_unfolding_all decide)⟩

/-- C8 counterexample: the claim's toy scenario is impossible.  The
acceptance step of `ref_set_generator` rejects any candidate already in
`ref_sets`, so the returned list is always duplicate-free and can never
contain the singleton set of "ab" twice, for any fuel and any sampler. -/
theorem toy_scenario_impossible :
    ¬ ∃ (fuel : Nat) (sampler : Nat → List String → Nat → List String)
        (out : List (Finset String)),
      ref_set_generator fuel 1 ["ab", "ba"] sampler 2 = some out ∧
        2 ≤ out.count ({"ab"} : Finset String) := by
  rintro ⟨fuel, sampler, out, hret, hcount⟩
  have hnd := ref_set_generator_nodup fuel 1 ["ab", "ba"] sampler 2 out hret
  have hle := List.nodup_iff_count_le_one.mp hnd ({"ab"} : Finset String)
  omega

/-- C8 (amended): when the smallest-occurrence bucket holds exactly `rLength`
q-grams and a retry is in progress and `1 < rLength`, a successful `genAttempt`
appends the set formed of one sampled element of that bucket plus `rLength - 1`
sampled elements of the next bucket; and when `rLength = 1` the variety branch
has no fallback — the attempt never generates a set, so the toy scenario with
`r_length = 1` loops without ever producing the required duplicates. -/
theorem variety_branch_behavior (rLength : Nat)
    (sampler : Nat → List String → Nat → List String) (counterKey : Nat)
    (snapshot : List String) (tryCounter : Nat) (st st' : GenSt) :
    (∀ nextBucket, snapshot.length = rLength → 1 < tryCounter → 1 < rLength →
      clookup st.counter (counterKey + 1) = some nextBucket →
      rLength - 1 ≤ nextBucket.length →
      genAttempt rLength sampler counterKey snapshot tryCounter st = some (true, st') →
      st'.refSets = st.refSets ++
        [(sampler st.tick snapshot 1 ++
          sampler (st.tick + 1) nextBucket (rLength - 1)).toFinset]) ∧
    (rLength = 1 → snapshot.length = rLength → 1 < tryCounter →
      genAttempt rLength sampler counterKey snapshot tryCounter st ≠ some (true, st')) := by
  constructor
  · intro nextBucket hsl htc hrl hnb hle h
    have hsc1 : sampleCall sampler st.tick snapshot 1
        = some (sampler st.tick snapshot 1) := by
      unfold sampleCall
      rw [if_pos]
      · rfl
      · constructor
        · norm_num
        · have h1 : 1 ≤ snapshot.length := by omega
          exact_mod_cast h1
    have hsc2 : sampleCall sampler (st.tick + 1) nextBucket ((rLength : Int) - 1)
        = some (sampler (st.tick + 1) nextBucket (rLength - 1)) := by
      unfold sampleCall
      rw [if_pos]
      · have ht : ((rLength : Int) - 1).toNat = rLength - 1 := by omega
        rw [ht]
      · constructor <;> omega
    simp only [genAttempt] at h
    split at h
    next =>
      split at h
      next =>
        split at h
        next hpn => rw [hsc1] at hpn; simp at hpn
        next pick1 hpick1 =>
          rw [hsc1] at hpick1
          injection hpick1 with hpick1
          subst hpick1
          split at h
          next =>
            split at h
            next hnone => rw [hnb] at hnone; simp at hnone
            next nb2 hnbeq =>
              rw [hnb] at hnbeq
              injection hnbeq with hnbeq
              subst hnbeq
              split at h
              next =>
                split at h
                next hpn => rw [hsc2] at hpn; simp at hpn
                next picksNext hpicks =>
                  rw [hsc2] at hpicks
                  injection hpicks with hpicks
                  subst hpicks
                  rcases acceptCandidate_refSets _ _ _ _ _ _ _ h with
                    ⟨hf, _⟩ | ⟨_, _, _, h3, _⟩
                  · simp at hf
                  · exact h3
              next hload =>
                exact absurd (by omega : (rLength : Int) - 1 ≤ (nextBucket.length : Int))
                  hload
          next hr1 =>
            exact absurd (by omega : (rLength : Int) - 1 ≠ 0) hr1
      next hvar =>
        exact absurd ⟨hsl, htc⟩ hvar
    next hlen =>
      exact absurd (by omega : rLength ≤ snapshot.length) hlen
  · intro hr hsl htc h
    subst hr
    simp only [genAttempt] at h
    split at h
    next =>
      split at h
      next =>
        split at h
        next => simp at h
        next pick1 hpick1 =>
          split at h
          next hr1 => exact hr1 (by norm_num)
          next =>
            injection h with h
            injection h with h1 h2
            simp at h1
      next hvar => exact hvar ⟨hsl, htc⟩
    next hlen => exact hlen (by omega)

/-- C8 witness: the variety branch realized on a concrete state — bucket 0
holds exactly two q-grams, the candidate combines one element of bucket 0 with
one of bucket 1, and the accepted state appends exactly that set. -/
theorem variety_branch_behavior_witness :
    (["aa", "bb"] : List String).length = 2 ∧ 1 < 2 ∧
      clookup stC8.counter (0 + 1) = some ["cc", "dd"] ∧
      2 - 1 ≤ (["cc", "dd"] : List String).length ∧
      genAttempt 2 takeSampler 0 ["aa", "bb"] 2 stC8 = some (true, stC8') ∧
      stC8'.refSets = stC8.refSets ++
        [(takeSampler stC8.tick ["aa", "bb"] 1 ++
          takeSampler (stC8.tick + 1) ["cc", "dd"] (2 - 1)).toFinset] :=
  ⟨by decide, by decide, by decide, by decide, by with_unfolding_all decide,
    (variety_branch_behavior 2 takeSampler 0 ["aa", "bb"] 2 stC8 stC8').1
      ["cc", "dd"] (by decide) (by decide) (by decide) (by decide) (by decide)
      (by with_unfolding_all decide)⟩

end RSE
